import Mathlib

/-!
The package tinywasm/broker: a key-consolidating debounce queue

A shallow embedding of `broker.go` and a verification of its specification.

Modelling conventions
* A Go slice is a `List` (value semantics).  The section `Memory view` gives the queue
  operations a second time with slice headers, backing arrays and capacities explicit;
  it is the model for what is said about aliasing.
* `sync.Mutex` is a `Bool` (`true` = held).  `Lock` on a held mutex never
  returns; an operation that never returns has result `none`.
* The time provider is an external collaborator; it is modelled as a logical
  clock together with the table of every timer it has handed out.
* A flush handler is a Go closure.  It is named by a number; what a handler
  does when it is called is given by a `HandlerSem`.
* `calls` is a ghost field: the trace of handler invocations observed so far.
-/

namespace broker

/-! ## Data model -/

/-- Item represents a consolidated group of data (`type Item struct`). -/
structure Item where
  Key : String
  Data : List (List UInt8)
deriving DecidableEq, Repr

/-- Life cycle of a one-shot timer handed out by the time provider. -/
inductive TimerState where
  | pending
  | stopped
  | fired
deriving DecidableEq, Repr

/-- One timer of the time provider: the instant from which it may fire, and its state. -/
structure TimerRec where
  deadline : Nat
  state : TimerState
deriving DecidableEq, Repr

/-- Modelled from the spec: the time provider of `github.com/tinywasm/time`, an
external collaborator that schedules a one-shot callback after a duration and
returns a cancellable handle.  It is a logical clock `now` (milliseconds) and
the table of timers handed out so far; a handle is an index into the table. -/
structure TimeProvider where
  now : Nat
  timers : List TimerRec
deriving DecidableEq, Repr

/-- One observed call of a flush handler: which handler, with which snapshot. -/
structure Invocation where
  handler : Nat
  items : List Item
deriving DecidableEq, Repr

/-- Broker handles batching of items (`type Broker struct`).  `timer = none` and
`onFlush = none` are Go's `nil`.  `calls` is the ghost trace of handler calls. -/
structure Broker where
  mu : Bool
  queue : List Item
  batchWindow : Int
  timer : Option Nat
  tp : TimeProvider
  onFlush : Option Nat
  calls : List Invocation
deriving DecidableEq, Repr

/-- What a handler does when called: handler name, snapshot, broker at the moment
of the call; `none` when the handler never returns. -/
abbrev HandlerSem := Nat → List Item → Broker → Option Broker

/-! ## Time provider -/

/-- Modelled from the spec: `time.NewTimeProvider()`, a clock at its origin with no timer. -/
def NewTimeProvider : TimeProvider :=
  { now := 0, timers := [] }

/-- Modelled from the spec: `tp.AfterFunc(ms, f)` schedules a one-shot callback `ms`
milliseconds from now and returns its handle.  A non-positive duration is due at once.
The callback is always `b.flush`, so it is not stored. -/
def TimeProvider.AfterFunc (tp : TimeProvider) (ms : Int) : TimeProvider × Nat :=
  ({ tp with timers := tp.timers ++ [{ deadline := tp.now + ms.toNat, state := .pending }] },
    tp.timers.length)

/-- Modelled from the spec: `timer.Stop()` cancels a pending timer and is harmless on a
timer that already fired or was already stopped. -/
def TimeProvider.Stop (tp : TimeProvider) (id : Nat) : TimeProvider :=
  match tp.timers[id]? with
  | some r =>
    if r.state = .pending then
      { tp with timers := tp.timers.set id { r with state := .stopped } }
    else tp
  | none => tp

/-- Modelled from the spec: the scheduler lets timer `id` expire.  Only a pending timer
whose deadline has been reached can expire (`none` otherwise); it becomes `fired`. -/
def TimeProvider.expire (tp : TimeProvider) (id : Nat) : Option TimeProvider :=
  match tp.timers[id]? with
  | some r =>
    if r.state = .pending ∧ r.deadline ≤ tp.now then
      some { tp with timers := tp.timers.set id { r with state := .fired } }
    else none
  | none => none

/-- Modelled from the spec: `dt` milliseconds pass on the logical clock. -/
def TimeProvider.advance (tp : TimeProvider) (dt : Nat) : TimeProvider :=
  { tp with now := tp.now + dt }

/-- Number of timers that are scheduled, not yet fired and not stopped. -/
def TimeProvider.pendingCount (tp : TimeProvider) : Nat :=
  (tp.timers.filter (fun r => r.state = .pending)).length

/-! ## The broker (`broker.go`) -/

/-- Lock is `b.mu.Lock()`: it never returns when the mutex is already held. -/
def Broker.Lock (b : Broker) : Option Broker :=
  if b.mu then none else some { b with mu := true }

/-- Unlock is `b.mu.Unlock()`. -/
def Broker.Unlock (b : Broker) : Broker :=
  { b with mu := false }

/-- New creates a new Broker with the specified batch window in milliseconds. -/
def New (batchWindow : Int) : Broker :=
  { mu := false, queue := [], batchWindow := batchWindow, timer := none,
    tp := NewTimeProvider, onFlush := none, calls := [] }

/-- SetOnFlush configures the callback for when the batch window expires. -/
def Broker.SetOnFlush (b : Broker) (fn : Option Nat) : Option Broker :=
  match b.Lock with
  | none => none
  | some b => some ({ b with onFlush := fn }).Unlock

/-- The consolidation loop of `Enqueue`: scan the queue in index order and append `data`
to the first item whose key is `key`; `none` when the loop ends without a match. -/
def consolidate : List Item → String → List UInt8 → Option (List Item)
  | [], _, _ => none
  | it :: rest, key, data =>
    if it.Key = key then some ({ it with Data := it.Data ++ [data] } :: rest)
    else (consolidate rest key data).map (fun q => it :: q)

/-- The method `resetTimerLocked`: stop the stored timer if there is one, then store a
freshly scheduled one. -/
def Broker.resetTimerLocked (b : Broker) : Broker :=
  let tp := match b.timer with
    | some t => b.tp.Stop t
    | none => b.tp
  let r := tp.AfterFunc b.batchWindow
  { b with tp := r.1, timer := some r.2 }

/-- Enqueue adds data to the queue, consolidating by key. -/
def Broker.Enqueue (b : Broker) (key : String) (data : List UInt8) : Option Broker :=
  match b.Lock with
  | none => none
  | some b =>
    match consolidate b.queue key data with
    | some q => some ({ b with queue := q } : Broker).resetTimerLocked.Unlock
    | none =>
      some ({ b with queue := b.queue ++ [{ Key := key, Data := [data] }] } :
        Broker).resetTimerLocked.Unlock

/-- The method `flush`: under the lock, return at once on an empty queue; otherwise copy the queue,
clear it and call the handler, if any, with the copy.  The unlock is deferred: it runs
when `flush` returns, after the handler has returned. -/
def Broker.flush (run : HandlerSem) (b : Broker) : Option Broker :=
  match b.Lock with
  | none => none
  | some b =>
    if b.queue.length = 0 then some b.Unlock
    else
      let items := b.queue
      let b := { b with queue := [] }
      match b.onFlush with
      | some h => (run h items b).map Broker.Unlock
      | none => some b.Unlock

/-- FlushNow forces an immediate flush. -/
def Broker.FlushNow (run : HandlerSem) (b : Broker) : Option Broker :=
  let b := match b.timer with
    | some t => { b with tp := b.tp.Stop t }
    | none => b
  b.flush run

/-- QueueLength returns the current number of unique keys in the queue. -/
def Broker.QueueLength (b : Broker) : Option (Nat × Broker) :=
  match b.Lock with
  | none => none
  | some b => some (b.queue.length, b.Unlock)

/-- Clear cleans the queue without triggering a flush. -/
def Broker.Clear (b : Broker) : Option Broker :=
  match b.Lock with
  | none => none
  | some b =>
    let b := match b.timer with
      | some t => { b with tp := b.tp.Stop t, timer := none }
      | none => b
    some ({ b with queue := [] }).Unlock

/-- A timer-fired flush: the scheduler lets timer `id` expire and runs its callback,
which is `b.flush`. -/
def Broker.timerFire (run : HandlerSem) (b : Broker) (id : Nat) : Option Broker :=
  match b.tp.expire id with
  | none => none
  | some tp => ({ b with tp := tp } : Broker).flush run

/-- Time passes: `dt` milliseconds on the logical clock, no timer fires. -/
def Broker.advance (b : Broker) (dt : Nat) : Broker :=
  { b with tp := b.tp.advance dt }

/-! ## Handlers and runs -/

/-- A handler that only records the call, like the handlers of the test suite. -/
def record : HandlerSem :=
  fun h items b => some { b with calls := b.calls ++ [{ handler := h, items := items }] }

/-- A handler that records the call and then enqueues on the same broker. -/
def reentrantEnqueue (key : String) (data : List UInt8) : HandlerSem :=
  fun h items b =>
    ({ b with calls := b.calls ++ [{ handler := h, items := items }] } : Broker).Enqueue key data

/-- A handler that records the call and then calls `FlushNow` on the same broker. -/
def reentrantFlushNow : HandlerSem :=
  fun h items b =>
    ({ b with calls := b.calls ++ [{ handler := h, items := items }] } : Broker).FlushNow record

/-- A handler that records the call and then calls `QueueLength` on the same broker. -/
def reentrantQueueLength : HandlerSem :=
  fun h items b =>
    (({ b with calls := b.calls ++ [{ handler := h, items := items }] } :
      Broker).QueueLength).map Prod.snd

/-- One operation of a client of the broker, or of its environment. -/
inductive Op where
  | setOnFlush (fn : Option Nat)
  | enqueue (key : String) (data : List UInt8)
  | timerFire (id : Nat)
  | flushNow
  | clear
  | queueLength
  | advance (dt : Nat)
deriving DecidableEq, Repr

/-- Perform one operation. -/
def Broker.step (run : HandlerSem) (b : Broker) : Op → Option Broker
  | .setOnFlush fn => b.SetOnFlush fn
  | .enqueue key data => b.Enqueue key data
  | .timerFire id => b.timerFire run id
  | .flushNow => b.FlushNow run
  | .clear => b.Clear
  | .queueLength => (b.QueueLength).map Prod.snd
  | .advance dt => some (b.advance dt)

/-- Perform a sequence of operations, in order. -/
def Broker.exec (run : HandlerSem) (b : Broker) : List Op → Option Broker
  | [] => some b
  | op :: ops =>
    match b.step run op with
    | none => none
    | some b => b.exec run ops

/-- A sequence of `Enqueue` calls, one per `(key, data)` pair. -/
def Broker.enqueueAll (b : Broker) : List (String × List UInt8) → Option Broker
  | [] => some b
  | kd :: kds =>
    match b.Enqueue kd.1 kd.2 with
    | none => none
    | some b => b.enqueueAll kds

/-- States reachable from `New w` by operations of clients whose handlers only record. -/
def Reachable (w : Int) (s : Broker) : Prop :=
  ∃ ops : List Op, (New w).exec record ops = some s

/-! ## The specification's view of a batch -/

/-- Keys in the order of their first submission, each once. -/
def firstKeys : List String → List String
  | [] => []
  | k :: ks => k :: (firstKeys ks).filter (fun x => x ≠ k)

/-- The fragments submitted under `key`, in submission order. -/
def fragmentsOf (key : String) (kds : List (String × List UInt8)) : List (List UInt8) :=
  (kds.filter (fun kd => kd.1 = key)).map Prod.snd

/-- The queue the specification prescribes after the submissions `kds`: one item per
distinct key, in first-submission order, holding that key's fragments in order. -/
def grouped (kds : List (String × List UInt8)) : List Item :=
  (firstKeys (kds.map Prod.fst)).map (fun k => { Key := k, Data := fragmentsOf k kds })

/-- The queue after one `Enqueue`, as a function of the queue before. -/
def enqueueQueue (q : List Item) (key : String) (data : List UInt8) : List Item :=
  match consolidate q key data with
  | some q => q
  | none => q ++ [{ Key := key, Data := [data] }]

/-- The time provider after the guarded stop `if b.timer != nil { b.timer.Stop() }`. -/
def stopStored (b : Broker) : TimeProvider :=
  match b.timer with
  | some t => b.tp.Stop t
  | none => b.tp

/-- The time provider after `resetTimerLocked`. -/
def rearmed (b : Broker) : TimeProvider :=
  { now := b.tp.now,
    timers := (stopStored b).timers ++
      [{ deadline := b.tp.now + b.batchWindow.toNat, state := .pending }] }

/-- The handler calls a flush of `b` makes when handlers only record. -/
def flushCalls (b : Broker) : List Invocation :=
  match b.onFlush with
  | some h => if b.queue = [] then [] else [{ handler := h, items := b.queue }]
  | none => []

/-- Timer `j` is scheduled, not yet fired and not stopped. -/
def Pending (tp : TimeProvider) (j : Nat) : Prop :=
  ∃ dl, tp.timers[j]? = some { deadline := dl, state := .pending }

/-- Only the stored handle can be pending. -/
def TimerInv (b : Broker) : Prop :=
  ∀ j, Pending b.tp j → b.timer = some j

/-- The invariant of the sequential broker: the mutex is free between operations, keys
are unique in the queue, and only the stored timer handle can be pending. -/
def Inv (b : Broker) : Prop :=
  b.mu = false ∧ (b.queue.map Item.Key).Nodup ∧ TimerInv b

/-- The effect of a successful consolidation when keys are unique. -/
def bump (key : String) (data : List UInt8) (it : Item) : Item :=
  if it.Key = key then { it with Data := it.Data ++ [data] } else it

/-- An `Enqueue` at instant `e.1` of the logical clock: time passes until then (no timer
fires), then `Enqueue(e.2.1, e.2.2)` is called. -/
def Broker.enqueueAt (b : Broker) (e : Nat × String × List UInt8) : Option Broker :=
  (b.advance (e.1 - b.tp.now)).Enqueue e.2.1 e.2.2

/-- A sequence of timed `Enqueue` calls. -/
def Broker.enqueueAllAt (b : Broker) : List (Nat × String × List UInt8) → Option Broker
  | [] => some b
  | e :: es =>
    match b.enqueueAt e with
    | none => none
    | some b => b.enqueueAllAt es

/-- Two consecutive submissions: in time order, and closer than the window `w`. -/
def Debounced (w : Int) (a b : Nat × String × List UInt8) : Prop :=
  a.1 ≤ b.1 ∧ (b.1 : Int) - (a.1 : Int) < w

/-- Exactly one timer is pending, and it is due at `dl`. -/
def ArmedAt (tp : TimeProvider) (id dl : Nat) : Prop :=
  tp.timers[id]? = some { deadline := dl, state := .pending } ∧ ∀ j, Pending tp j → j = id

/-- The state of the test suite's timed flush scenario after the timer has fired at `50`. -/
def key1Flushed : Broker :=
  { mu := false,
    queue := [],
    batchWindow := 50,
    timer := some 0,
    tp := { now := 50, timers := [{ deadline := 50, state := .fired }] },
    onFlush := some 0,
    calls := [{ handler := 0, items := [{ Key := "key1", Data := [[116, 101, 115, 116]] }] }] }

/-! ## Concrete scenarios -/

/-- The consolidation scenario of the specification, with a handler and some time passing:
`a:A`, `a:B`, `b:C`. -/
def scenarioOps : List Op :=
  [.setOnFlush (some 0), .enqueue "a" [65], .advance 10, .enqueue "a" [66], .enqueue "b" [67]]

/-- The state the consolidation scenario ends in. -/
def scenarioState : Broker :=
  { mu := false,
    queue := [{ Key := "a", Data := [[65], [66]] }, { Key := "b", Data := [[67]] }],
    batchWindow := 500,
    timer := some 2,
    tp := { now := 10,
            timers := [{ deadline := 500, state := .stopped },
                       { deadline := 510, state := .stopped },
                       { deadline := 510, state := .pending }] },
    onFlush := some 0,
    calls := [] }

/-- The test suite's flush scenario: handler `0` registered, then `Enqueue("key1", "test")`. -/
def key1Ops : List Op :=
  [.setOnFlush (some 0), .enqueue "key1" [116, 101, 115, 116]]

/-- The state of the test suite's flush scenario just before the flush, for window `w`. -/
def key1State (w : Nat) : Broker :=
  { mu := false,
    queue := [{ Key := "key1", Data := [[116, 101, 115, 116]] }],
    batchWindow := w,
    timer := some 0,
    tp := { now := 0, timers := [{ deadline := w, state := .pending }] },
    onFlush := some 0,
    calls := [] }

/-- The test suite's clear scenario: `key1:A`, `key2:B` on `New(5000)`, no handler. -/
def twoKeysState : Broker :=
  { mu := false,
    queue := [{ Key := "key1", Data := [[65]] }, { Key := "key2", Data := [[66]] }],
    batchWindow := 5000,
    timer := some 1,
    tp := { now := 0,
            timers := [{ deadline := 5000, state := .stopped },
                       { deadline := 5000, state := .pending }] },
    onFlush := none,
    calls := [] }

/-- The operation is an `Enqueue`. -/
def Op.isEnqueue : Op → Bool
  | .enqueue _ _ => true
  | _ => false

/-- A settled broker: unlocked, nothing queued, no timer pending. -/
def Quiet (b : Broker) : Prop :=
  b.mu = false ∧ b.queue = [] ∧ ∀ j, ¬ Pending b.tp j

/-- Every queued item holds at least one fragment, and every snapshot handed to a handler
so far was non-empty, with non-empty items and pairwise distinct keys. -/
def DataInv (b : Broker) : Prop :=
  (∀ it ∈ b.queue, it.Data ≠ []) ∧
  ∀ c ∈ b.calls, c.items ≠ [] ∧ (∀ it ∈ c.items, it.Data ≠ []) ∧
    (c.items.map Item.Key).Nodup

/-- The fragments held under `key` by a list of items, in order. -/
def dataOf (key : String) : List Item → List (List UInt8)
  | [] => []
  | it :: rest => if it.Key = key then it.Data ++ dataOf key rest else dataOf key rest

/-- The fragments delivered under `key` by a trace of handler calls, in delivery order. -/
def deliveredOf (key : String) : List Invocation → List (List UInt8)
  | [] => []
  | c :: cs => dataOf key c.items ++ deliveredOf key cs

/-- The number of fragments held by a list of items. -/
def fragmentCount : List Item → Nat
  | [] => 0
  | it :: rest => it.Data.length + fragmentCount rest

/-- The number of fragments delivered by a trace of handler calls. -/
def deliveredCount : List Invocation → Nat
  | [] => 0
  | c :: cs => fragmentCount c.items + deliveredCount cs

/-- The `(key, data)` pairs submitted by the `Enqueue` calls of a run, in order. -/
def submitted : List Op → List (String × List UInt8)
  | [] => []
  | op :: ops =>
    match op with
    | .enqueue key data => (key, data) :: submitted ops
    | _ => submitted ops

/-- The operation neither discards the queue nor removes the handler. -/
def Op.conserving : Op → Bool
  | .clear => false
  | .setOnFlush none => false
  | _ => true

/-- A run with two timer- or client-triggered flushes and data still pending at the end. -/
def conservingOps : List Op :=
  [.enqueue "a" [65], .advance 10, .enqueue "a" [66], .enqueue "b" [67], .advance 500,
   .timerFire 2, .enqueue "a" [68], .flushNow, .enqueue "b" [69]]

/-- The state the run `conservingOps` ends in, from `New(500)` with handler `0`. -/
def conservedState : Broker :=
  { mu := false,
    queue := [{ Key := "b", Data := [[69]] }],
    batchWindow := 500,
    timer := some 4,
    tp := { now := 510,
            timers := [{ deadline := 500, state := .stopped },
                       { deadline := 510, state := .stopped },
                       { deadline := 510, state := .fired },
                       { deadline := 1010, state := .stopped },
                       { deadline := 1010, state := .pending }] },
    onFlush := some 0,
    calls := [{ handler := 0,
                items := [{ Key := "a", Data := [[65], [66]] }, { Key := "b", Data := [[67]] }] },
              { handler := 0, items := [{ Key := "a", Data := [[68]] }] }] }

/-! ## Memory view

The same queue operations with Go's slices made explicit: a slice is a header pointing
into a backing array on a heap, `append` writes in place while capacity lasts and moves
to a fresh array otherwise, and `copy` copies item structs, so that a copied item shares
the backing array of its `Data` with the original.  Mutex and timers do not touch the
queue's memory and are left out.  The runtime's growth policy is a parameter `grow`.
-/

/-- A Go slice header: backing array, length, capacity. -/
structure Slice where
  ptr : Nat
  len : Nat
  cap : Nat
deriving DecidableEq, Repr

/-- An `Item` as it lies in memory: its key and the header of its `Data` slice. -/
structure ItemCell where
  Key : String
  Data : Slice
deriving DecidableEq, Repr

/-- The heap: backing arrays of `[]Item` and of `[][]byte`, addressed by numbers, with
the next free address of each kind.  A `[]byte` fragment is kept as a value, since the
broker never writes into one. -/
structure Heap where
  items : Nat → Nat → ItemCell
  itemsNext : Nat
  frags : Nat → Nat → List UInt8
  fragsNext : Nat

/-- The broker's queue in memory, its handler, and the trace of handler calls, each with
the slice header that was passed to the handler. -/
structure MemBroker where
  queue : Slice
  heap : Heap
  onFlush : Option Nat
  calls : List (Nat × Slice)

/-- The zero value of `Item`. -/
def ItemCell.zero : ItemCell :=
  { Key := "", Data := { ptr := 0, len := 0, cap := 0 } }

/-- The built-in `append(s, x)` on a `[][]byte`: in place when `len < cap`, otherwise
into a fresh array of capacity at least `len + 1` that receives a copy of the elements. -/
def appendData (grow : Nat → Nat) (h : Heap) (s : Slice) (x : List UInt8) : Heap × Slice :=
  if s.len < s.cap then
    ({ h with frags := fun a k => if a = s.ptr ∧ k = s.len then x else h.frags a k },
      { s with len := s.len + 1 })
  else
    ({ h with
        frags := fun a k =>
          if a = h.fragsNext then
            if k < s.len then h.frags s.ptr k else if k = s.len then x else []
          else h.frags a k
        fragsNext := h.fragsNext + 1 },
      { ptr := h.fragsNext, len := s.len + 1, cap := max (grow s.cap) (s.len + 1) })

/-- The built-in `append(s, c)` on a `[]Item`. -/
def appendItem (grow : Nat → Nat) (h : Heap) (s : Slice) (c : ItemCell) : Heap × Slice :=
  if s.len < s.cap then
    ({ h with items := fun a i => if a = s.ptr ∧ i = s.len then c else h.items a i },
      { s with len := s.len + 1 })
  else
    ({ h with
        items := fun a i =>
          if a = h.itemsNext then
            if i < s.len then h.items s.ptr i else if i = s.len then c else ItemCell.zero
          else h.items a i
        itemsNext := h.itemsNext + 1 },
      { ptr := h.itemsNext, len := s.len + 1, cap := max (grow s.cap) (s.len + 1) })

/-- The composite literal `[][]byte{data}`: a fresh array of one element. -/
def literalData (h : Heap) (data : List UInt8) : Heap × Slice :=
  ({ h with
      frags := fun a k => if a = h.fragsNext then (if k = 0 then data else []) else h.frags a k
      fragsNext := h.fragsNext + 1 },
    { ptr := h.fragsNext, len := 1, cap := 1 })

/-- The statements `items := make([]Item, len(q)); copy(items, q)`: a fresh array that
receives the item structs of `q`, `Data` headers included. -/
def copyItems (h : Heap) (q : Slice) : Heap × Slice :=
  ({ h with
      items := fun a i =>
        if a = h.itemsNext then (if i < q.len then h.items q.ptr i else ItemCell.zero)
        else h.items a i
      itemsNext := h.itemsNext + 1 },
    { ptr := h.itemsNext, len := q.len, cap := q.len })

/-- The loop `for i := range b.queue` of `Enqueue`: the first index from `i` on, among `n`
cells, whose key is `key`. -/
def findKey (row : Nat → ItemCell) (key : String) : Nat → Nat → Option Nat
  | 0, _ => none
  | n + 1, i => if (row i).Key = key then some i else findKey row key n (i + 1)

/-- The constructor `New` in memory: `queue: make([]Item, 0, 16)`. -/
def NewMem : MemBroker :=
  { queue := { ptr := 0, len := 0, cap := 16 },
    heap := { items := fun _ _ => ItemCell.zero, itemsNext := 1,
              frags := fun _ _ => [], fragsNext := 0 },
    onFlush := none,
    calls := [] }

/-- The method `SetOnFlush` in memory. -/
def MemBroker.SetOnFlush (b : MemBroker) (fn : Option Nat) : MemBroker :=
  { b with onFlush := fn }

/-- The method `Enqueue` in memory: `b.queue[i].Data = append(b.queue[i].Data, data)` at
the first cell with the key, else `b.queue = append(b.queue, Item{key, [][]byte{data}})`. -/
def MemBroker.Enqueue (grow : Nat → Nat) (b : MemBroker) (key : String) (data : List UInt8) :
    MemBroker :=
  match findKey (b.heap.items b.queue.ptr) key b.queue.len 0 with
  | some i =>
    let cell := b.heap.items b.queue.ptr i
    let r := appendData grow b.heap cell.Data data
    { b with
      heap := { r.1 with
        items := fun a j =>
          if a = b.queue.ptr ∧ j = i then { cell with Data := r.2 } else r.1.items a j } }
  | none =>
    let r := literalData b.heap data
    let r2 := appendItem grow r.1 b.queue { Key := key, Data := r.2 }
    { b with heap := r2.1, queue := r2.2 }

/-- The method `flush` in memory: nothing on an empty queue; otherwise copy the items,
truncate the queue to `b.queue[:0]`, and pass the copy to the handler, if any. -/
def MemBroker.flush (b : MemBroker) : MemBroker :=
  if b.queue.len = 0 then b
  else
    let r := copyItems b.heap b.queue
    match b.onFlush with
    | some h =>
      { b with heap := r.1, queue := { b.queue with len := 0 }, calls := b.calls ++ [(h, r.2)] }
    | none => { b with heap := r.1, queue := { b.queue with len := 0 } }

/-- The method `Clear` in memory: `b.queue = b.queue[:0]`. -/
def MemBroker.Clear (b : MemBroker) : MemBroker :=
  { b with queue := { b.queue with len := 0 } }

/-- One operation on the memory view; a flush may come from `FlushNow` or from a timer. -/
def MemBroker.step (grow : Nat → Nat) (b : MemBroker) : Op → MemBroker
  | .setOnFlush fn => b.SetOnFlush fn
  | .enqueue key data => b.Enqueue grow key data
  | .timerFire _ => b.flush
  | .flushNow => b.flush
  | .clear => b.Clear
  | .queueLength => b
  | .advance _ => b

/-- A sequence of operations on the memory view. -/
def MemBroker.exec (grow : Nat → Nat) (b : MemBroker) : List Op → MemBroker
  | [] => b
  | op :: ops => (b.step grow op).exec grow ops

/-- The fragments a `[][]byte` slice denotes on a heap. -/
def Heap.readData (h : Heap) (s : Slice) : List (List UInt8) :=
  (List.range s.len).map (fun k => h.frags s.ptr k)

/-- The items a `[]Item` slice denotes on a heap, fragments included. -/
def Heap.readItems (h : Heap) (s : Slice) : List Item :=
  (List.range s.len).map
    (fun i => { Key := (h.items s.ptr i).Key, Data := h.readData (h.items s.ptr i).Data })

/-- The queue's backing array and the `Data` arrays of its live cells are allocated. -/
def MemWF (b : MemBroker) : Prop :=
  b.queue.ptr < b.heap.itemsNext ∧
  ∀ j, j < b.queue.len → (b.heap.items b.queue.ptr j).Data.ptr < b.heap.fragsNext

/-- The snapshot `snap` is out of the queue's reach: its array is not the queue's, and no
live cell of the queue shares a `Data` array with it. -/
def Safe (snap : Slice) (b : MemBroker) : Prop :=
  snap.ptr < b.heap.itemsNext ∧ snap.ptr ≠ b.queue.ptr ∧
  ∀ i, i < snap.len →
    (b.heap.items snap.ptr i).Data.ptr < b.heap.fragsNext ∧
    ∀ j, j < b.queue.len →
      (b.heap.items b.queue.ptr j).Data.ptr ≠ (b.heap.items snap.ptr i).Data.ptr

/-- The heap `h'` holds for `snap` what `h` held: same cells, same fragment arrays. -/
def SameSnap (snap : Slice) (h h' : Heap) : Prop :=
  (∀ i, h'.items snap.ptr i = h.items snap.ptr i) ∧
  ∀ i, i < snap.len → ∀ k,
    h'.frags (h.items snap.ptr i).Data.ptr k = h.frags (h.items snap.ptr i).Data.ptr k

/-- A run in which the queue's backing array is reused after a flush: the slot of `a`
is overwritten and appended to while an earlier snapshot still exists. -/
def reuseOps : List Op :=
  [.setOnFlush (some 0), .enqueue "a" [65], .enqueue "a" [66], .enqueue "b" [67], .flushNow]

/-- What follows the flush in that run. -/
def reuseMore : List Op :=
  [.enqueue "a" [68], .enqueue "a" [69], .enqueue "c" [70], .flushNow, .enqueue "b" [71], .clear]

/-- What every operation guarantees about memory, from `b` to `b'`: nothing is freed,
item arrays other than the queue's and fragment arrays other than those of the queue's
live cells are left as they were, the queue stays where it was or moves to a fresh array,
and each live cell of the new queue has a `Data` array that a live cell had before or
that is fresh. -/
def Frame (b b' : MemBroker) : Prop :=
  b.heap.itemsNext ≤ b'.heap.itemsNext ∧ b.heap.fragsNext ≤ b'.heap.fragsNext ∧
  (∀ a i, a < b.heap.itemsNext → a ≠ b.queue.ptr → b'.heap.items a i = b.heap.items a i) ∧
  (∀ a k, a < b.heap.fragsNext →
    (∀ j, j < b.queue.len → (b.heap.items b.queue.ptr j).Data.ptr ≠ a) →
    b'.heap.frags a k = b.heap.frags a k) ∧
  (b'.queue.ptr = b.queue.ptr ∨ b.heap.itemsNext ≤ b'.queue.ptr) ∧
  b'.queue.ptr < b'.heap.itemsNext ∧
  ∀ j, j < b'.queue.len →
    (b'.heap.items b'.queue.ptr j).Data.ptr < b'.heap.fragsNext ∧
    ((∃ j0, j0 < b.queue.len ∧
        (b'.heap.items b'.queue.ptr j).Data.ptr = (b.heap.items b.queue.ptr j0).Data.ptr) ∨
      b.heap.fragsNext ≤ (b'.heap.items b'.queue.ptr j).Data.ptr)

/-- The memory invariant: the queue is well formed and every snapshot handed to a handler
so far is out of the queue's reach. -/
def AllSafe (b : MemBroker) : Prop :=
  MemWF b ∧ ∀ c ∈ b.calls, Safe c.2 b

/-! ## Basic facts -/

theorem firstKeys_mem (ks : List String) (x : String) : x ∈ firstKeys ks ↔ x ∈ ks := by
  induction ks with
  | nil => simp [firstKeys]
  | cons k ks ih =>
    simp only [firstKeys, List.mem_cons, List.mem_filter, ih]
    by_cases hx : x = k <;> simp [hx]

theorem firstKeys_nodup (ks : List String) : (firstKeys ks).Nodup := by
  induction ks with
  | nil => simp [firstKeys]
  | cons k ks ih =>
    simp only [firstKeys, List.nodup_cons, List.mem_filter]
    exact ⟨by simp, ih.filter _⟩

theorem firstKeys_snoc (ks : List String) (k : String) :
    firstKeys (ks ++ [k]) = if k ∈ ks then firstKeys ks else firstKeys ks ++ [k] := by
  induction ks with
  | nil => simp [firstKeys]
  | cons a ks ih =>
    rw [List.cons_append, firstKeys, ih, firstKeys]
    by_cases hka : k = a
    · subst hka
      by_cases hk : k ∈ ks <;> simp [hk, List.filter_append]
    · have hak : ¬ a = k := fun h => hka h.symm
      by_cases hk : k ∈ ks <;> simp [hk, hka, hak, List.filter_append]

theorem Stop_now (tp : TimeProvider) (id : Nat) : (tp.Stop id).now = tp.now := by
  unfold TimeProvider.Stop
  split
  · split <;> rfl
  · rfl

theorem Stop_length (tp : TimeProvider) (id : Nat) :
    (tp.Stop id).timers.length = tp.timers.length := by
  unfold TimeProvider.Stop
  split
  · split <;> simp
  · rfl

theorem resetTimerLocked_eq (b : Broker) :
    b.resetTimerLocked = { b with tp := rearmed b, timer := some b.tp.timers.length } := by
  unfold Broker.resetTimerLocked rearmed stopStored TimeProvider.AfterFunc
  cases ht : b.timer with
  | none => simp
  | some t => simp [Stop_now, Stop_length]

theorem Enqueue_eq (b : Broker) (hb : b.mu = false) (key : String) (data : List UInt8) :
    b.Enqueue key data = some { b with
      queue := enqueueQueue b.queue key data,
      tp := rearmed b,
      timer := some b.tp.timers.length } := by
  unfold Broker.Enqueue Broker.Lock enqueueQueue
  simp only [hb, Bool.false_eq_true, if_false]
  cases hc : consolidate b.queue key data with
  | none => simp [resetTimerLocked_eq, Broker.Unlock, rearmed, stopStored, hb]
  | some q => simp [resetTimerLocked_eq, Broker.Unlock, rearmed, stopStored, hb]

/-! ## Consolidation -/

theorem bump_Key (key : String) (data : List UInt8) (it : Item) :
    (bump key data it).Key = it.Key := by
  unfold bump
  split <;> rfl

theorem map_bump_of_not_mem (q : List Item) (key : String) (data : List UInt8)
    (h : key ∉ q.map Item.Key) : q.map (bump key data) = q := by
  induction q with
  | nil => rfl
  | cons it rest ih =>
    simp only [List.map_cons, List.mem_cons, not_or] at h
    have h1 : ¬ it.Key = key := fun e => h.1 e.symm
    simp [bump, h1]
    simpa [bump] using ih h.2

theorem consolidate_none (q : List Item) (key : String) (data : List UInt8)
    (h : key ∉ q.map Item.Key) : consolidate q key data = none := by
  induction q with
  | nil => rfl
  | cons it rest ih =>
    simp only [List.map_cons, List.mem_cons, not_or] at h
    have h1 : ¬ it.Key = key := fun e => h.1 e.symm
    simp [consolidate, h1, ih h.2]

theorem consolidate_some (q : List Item) (key : String) (data : List UInt8)
    (hnd : (q.map Item.Key).Nodup) (h : key ∈ q.map Item.Key) :
    consolidate q key data = some (q.map (bump key data)) := by
  induction q with
  | nil => simp at h
  | cons it rest ih =>
    simp only [List.map_cons, List.nodup_cons] at hnd
    by_cases h1 : it.Key = key
    · have hr : key ∉ rest.map Item.Key := h1 ▸ hnd.1
      simp [consolidate, h1, map_bump_of_not_mem rest key data hr, bump]
    · have hr : key ∈ rest.map Item.Key := by
        simp only [List.map_cons, List.mem_cons] at h
        rcases h with h | h
        · exact absurd h.symm h1
        · exact h
      simp [consolidate, h1, ih hnd.2 hr, bump]

theorem enqueueQueue_keys_nodup (q : List Item) (key : String) (data : List UInt8)
    (hnd : (q.map Item.Key).Nodup) : ((enqueueQueue q key data).map Item.Key).Nodup := by
  unfold enqueueQueue
  by_cases h : key ∈ q.map Item.Key
  · rw [consolidate_some q key data hnd h]
    have : (q.map (bump key data)).map Item.Key = q.map Item.Key := by
      simp [List.map_map, Function.comp_def, bump_Key]
    simpa [this] using hnd
  · rw [consolidate_none q key data h]
    simp only [List.map_append, List.map_cons, List.map_nil]
    exact List.Nodup.append hnd (by simp) (by simpa using h)

theorem grouped_keys (kds : List (String × List UInt8)) :
    (grouped kds).map Item.Key = firstKeys (kds.map Prod.fst) := by
  simp [grouped, List.map_map, Function.comp_def]

theorem fragmentsOf_snoc (k' : String) (kds : List (String × List UInt8)) (k : String)
    (d : List UInt8) :
    fragmentsOf k' (kds ++ [(k, d)]) = fragmentsOf k' kds ++ (if k = k' then [d] else []) := by
  unfold fragmentsOf
  by_cases h : k = k' <;> simp [List.filter_append, h]

theorem fragmentsOf_of_not_mem (k : String) (kds : List (String × List UInt8))
    (h : k ∉ kds.map Prod.fst) : fragmentsOf k kds = [] := by
  unfold fragmentsOf
  simp only [List.map_eq_nil_iff, List.filter_eq_nil_iff]
  intro kd hkd
  simp only [decide_eq_true_eq]
  intro e
  exact h (List.mem_map.mpr ⟨kd, hkd, e⟩)

theorem grouped_snoc (kds : List (String × List UInt8)) (k : String) (d : List UInt8) :
    grouped (kds ++ [(k, d)]) = enqueueQueue (grouped kds) k d := by
  unfold enqueueQueue
  by_cases h : k ∈ kds.map Prod.fst
  · have hm : k ∈ (grouped kds).map Item.Key := by
      rw [grouped_keys]; exact (firstKeys_mem _ _).mpr h
    have hnd : ((grouped kds).map Item.Key).Nodup := by
      rw [grouped_keys]; exact firstKeys_nodup _
    rw [consolidate_some _ k d hnd hm]
    simp only [grouped, List.map_append, List.map_cons, List.map_nil, firstKeys_snoc, h,
      if_true, List.map_map]
    apply List.map_congr_left
    intro k' _
    simp only [Function.comp_def, bump, fragmentsOf_snoc]
    by_cases e : k = k'
    · subst e; simp
    · have e' : ¬ k' = k := fun x => e x.symm
      simp [e, e']
  · have hm : k ∉ (grouped kds).map Item.Key := by
      rw [grouped_keys]; exact fun x => h ((firstKeys_mem _ _).mp x)
    rw [consolidate_none _ k d hm]
    simp only [grouped, List.map_append, List.map_cons, List.map_nil, firstKeys_snoc, h,
      if_false]
    congr 1
    · apply List.map_congr_left
      intro k' hk'
      have e : ¬ k = k' := by
        intro x; subst x
        exact h ((firstKeys_mem _ _).mp hk')
      simp [fragmentsOf_snoc, e]
    · simp [fragmentsOf_snoc, fragmentsOf_of_not_mem k kds h]

theorem foldl_enqueueQueue_grouped (kds : List (String × List UInt8)) :
    kds.foldl (fun q kd => enqueueQueue q kd.1 kd.2) [] = grouped kds := by
  induction kds using List.reverseRecOn with
  | nil => rfl
  | append_singleton l a ih =>
    rw [List.foldl_append, ih]
    obtain ⟨k, d⟩ := a
    simp [grouped_snoc]

/-! ## Operations on an unlocked broker -/

theorem Lock_Unlock (b : Broker) (hb : b.mu = false) :
    ({ b with mu := true } : Broker).Unlock = b := by
  cases b
  simp only [Broker.Unlock] at *
  simp [hb]

theorem enqueueAll_spec (kds : List (String × List UInt8)) (b : Broker) (hb : b.mu = false) :
    ∃ s, b.enqueueAll kds = some s ∧
      s.queue = kds.foldl (fun q kd => enqueueQueue q kd.1 kd.2) b.queue ∧
      s.mu = false ∧ s.calls = b.calls ∧ s.onFlush = b.onFlush ∧
      s.batchWindow = b.batchWindow := by
  induction kds generalizing b with
  | nil => exact ⟨b, rfl, rfl, hb, rfl, rfl, rfl⟩
  | cons kd kds ih =>
    obtain ⟨s, hs, hq, hmu, hc, hf, hw⟩ :=
      ih { b with queue := enqueueQueue b.queue kd.1 kd.2, tp := rearmed b,
                  timer := some b.tp.timers.length } hb
    refine ⟨s, ?_, ?_, hmu, hc, hf, hw⟩
    · simp only [Broker.enqueueAll, Enqueue_eq b hb]
      exact hs
    · simpa using hq

theorem flush_empty (run : HandlerSem) (b : Broker) (hb : b.mu = false) (hq : b.queue = []) :
    b.flush run = some b := by
  cases b
  simp only at hb hq
  subst hb hq
  rfl

theorem flush_handler (run : HandlerSem) (b : Broker) (h : Nat) (hb : b.mu = false)
    (hq : b.queue ≠ []) (hf : b.onFlush = some h) :
    b.flush run = (run h b.queue { b with mu := true, queue := [] }).map Broker.Unlock := by
  unfold Broker.flush Broker.Lock
  simp [hb, hq, hf]

theorem flush_no_handler (run : HandlerSem) (b : Broker) (hb : b.mu = false)
    (hf : b.onFlush = none) : b.flush run = some { b with queue := [] } := by
  unfold Broker.flush Broker.Lock
  by_cases hq : b.queue = []
  · cases b
    simp only at hb hq hf
    subst hb hq hf
    rfl
  · simp [hb, hq, hf, Broker.Unlock]

theorem flush_record (b : Broker) (h : Nat) (hb : b.mu = false) (hq : b.queue ≠ [])
    (hf : b.onFlush = some h) :
    b.flush record =
      some { b with queue := [], calls := b.calls ++ [{ handler := h, items := b.queue }] } := by
  rw [flush_handler record b h hb hq hf]
  simp [record, Broker.Unlock, hb]

theorem QueueLength_eq (b : Broker) (hb : b.mu = false) :
    b.QueueLength = some (b.queue.length, b) := by
  unfold Broker.QueueLength Broker.Lock
  simp [hb, Lock_Unlock b hb]

theorem SetOnFlush_eq (b : Broker) (hb : b.mu = false) (fn : Option Nat) :
    b.SetOnFlush fn = some { b with onFlush := fn } := by
  unfold Broker.SetOnFlush Broker.Lock
  simp [hb, Broker.Unlock]

theorem grouped_eq_nil (kds : List (String × List UInt8)) : grouped kds = [] ↔ kds = [] := by
  cases kds with
  | nil => simp [grouped, firstKeys]
  | cons kd kds => simp [grouped, firstKeys]

theorem flush_record_eq (b : Broker) (hb : b.mu = false) :
    b.flush record = some { b with queue := [], calls := b.calls ++ flushCalls b } := by
  unfold flushCalls
  cases hf : b.onFlush with
  | none => rw [flush_no_handler record b hb hf]; simp [hf]
  | some h =>
    by_cases hq : b.queue = []
    · rw [flush_empty record b hb hq]
      cases b
      simp only at hq hf
      subst hq hf
      simp
    · rw [flush_record b h hb hq hf]; simp [hq, hf]

theorem FlushNow_eq (run : HandlerSem) (b : Broker) :
    b.FlushNow run = ({ b with tp := stopStored b } : Broker).flush run := by
  unfold Broker.FlushNow stopStored
  cases ht : b.timer with
  | none => cases b; simp only at ht; subst ht; rfl
  | some t => rfl

theorem FlushNow_record_eq (b : Broker) (hb : b.mu = false) :
    b.FlushNow record =
      some { b with tp := stopStored b, queue := [], calls := b.calls ++ flushCalls b } := by
  rw [FlushNow_eq, flush_record_eq ({ b with tp := stopStored b } : Broker) hb]
  rfl

theorem Clear_eq (b : Broker) (hb : b.mu = false) :
    b.Clear = some { b with tp := stopStored b, timer := none, queue := [] } := by
  unfold Broker.Clear Broker.Lock stopStored
  cases ht : b.timer with
  | none => simp [hb, Broker.Unlock, ht]
  | some t => simp [hb, Broker.Unlock, ht]

theorem timerFire_record_eq (b : Broker) (hb : b.mu = false) (id : Nat) (tp : TimeProvider)
    (he : b.tp.expire id = some tp) :
    b.timerFire record id =
      some { b with tp := tp, queue := [], calls := b.calls ++ flushCalls b } := by
  unfold Broker.timerFire
  rw [he]
  simp only
  rw [flush_record_eq ({ b with tp := tp } : Broker) hb]
  rfl

/-! ## Timers -/

theorem Stop_pending (tp : TimeProvider) (id j : Nat) (h : Pending (tp.Stop id) j) :
    j ≠ id ∧ Pending tp j := by
  obtain ⟨dl, h⟩ := h
  unfold TimeProvider.Stop at h
  cases hr : tp.timers[id]? with
  | none =>
    rw [hr] at h
    refine ⟨?_, dl, h⟩
    rintro rfl
    simp only at h
    rw [hr] at h
    cases h
  | some r =>
    rw [hr] at h
    simp only at h
    by_cases hp : r.state = .pending
    · rw [if_pos hp] at h
      simp only [List.getElem?_set] at h
      by_cases e : id = j
      · rw [if_pos e] at h
        split at h
        · cases h
        · cases h
      · rw [if_neg e] at h
        exact ⟨fun x => e x.symm, dl, h⟩
    · rw [if_neg hp] at h
      refine ⟨?_, dl, h⟩
      rintro rfl
      rw [hr] at h
      cases h
      exact hp rfl

theorem expire_some (tp tp' : TimeProvider) (id : Nat) (h : tp.expire id = some tp') :
    tp'.now = tp.now ∧ (∃ dl, tp.timers[id]? = some { deadline := dl, state := .pending } ∧
      dl ≤ tp.now) ∧ ∀ j, ¬ Pending tp' j ∨ (j ≠ id ∧ Pending tp j) := by
  unfold TimeProvider.expire at h
  cases hr : tp.timers[id]? with
  | none => rw [hr] at h; cases h
  | some r =>
    rw [hr] at h
    simp only at h
    by_cases hp : r.state = .pending ∧ r.deadline ≤ tp.now
    · rw [if_pos hp] at h
      cases h
      refine ⟨rfl, ⟨r.deadline, ?_, hp.2⟩, ?_⟩
      · obtain ⟨dl, st⟩ := r
        simp only at hp
        rw [hp.1]
      · intro j
        by_cases e : id = j
        · left
          rintro ⟨dl, hj⟩
          simp only [List.getElem?_set, if_pos e] at hj
          split at hj
          · cases hj
          · cases hj
        · by_cases hj : Pending { tp with timers := tp.timers.set id { r with state := .fired } } j
          · right
            obtain ⟨dl, hj⟩ := hj
            simp only [List.getElem?_set, if_neg e] at hj
            exact ⟨fun x => e x.symm, dl, hj⟩
          · left; exact hj
    · rw [if_neg hp] at h
      cases h

theorem expire_none_of_not_due (tp : TimeProvider) (id : Nat)
    (h : ∀ dl, tp.timers[id]? = some { deadline := dl, state := .pending } → tp.now < dl) :
    tp.expire id = none := by
  cases he : tp.expire id with
  | none => rfl
  | some tp' =>
    obtain ⟨_, ⟨dl, h1, h2⟩, _⟩ := expire_some tp tp' id he
    exact absurd (h dl h1) (by omega)

theorem stopStored_pending (b : Broker) (j : Nat) (h : Pending (stopStored b) j) :
    Pending b.tp j ∧ b.timer ≠ some j := by
  unfold stopStored at h
  cases ht : b.timer with
  | none => rw [ht] at h; exact ⟨h, by simp⟩
  | some t =>
    rw [ht] at h
    obtain ⟨h1, h2⟩ := Stop_pending b.tp t j h
    exact ⟨h2, fun e => h1 (Option.some.inj e).symm⟩

theorem stopStored_now (b : Broker) : (stopStored b).now = b.tp.now := by
  unfold stopStored
  cases b.timer with
  | none => rfl
  | some t => exact Stop_now _ _

theorem stopStored_length (b : Broker) : (stopStored b).timers.length = b.tp.timers.length := by
  unfold stopStored
  cases b.timer with
  | none => rfl
  | some t => exact Stop_length _ _

theorem stopStored_none_pending (b : Broker) (hi : TimerInv b) (j : Nat) :
    ¬ Pending (stopStored b) j := by
  intro h
  obtain ⟨h1, h2⟩ := stopStored_pending b j h
  exact h2 (hi j h1)

theorem rearmed_pending (b : Broker) (hi : TimerInv b) (j : Nat) (h : Pending (rearmed b) j) :
    j = b.tp.timers.length := by
  obtain ⟨dl, h⟩ := h
  unfold rearmed at h
  simp only [List.getElem?_append] at h
  by_cases hj : j < (stopStored b).timers.length
  · rw [if_pos hj] at h
    exact absurd ⟨dl, h⟩ (stopStored_none_pending b hi j)
  · rw [if_neg hj] at h
    rw [stopStored_length] at hj h
    by_cases e : j = b.tp.timers.length
    · exact e
    · have : j - b.tp.timers.length = (j - b.tp.timers.length - 1) + 1 := by omega
      rw [this] at h
      simp at h

theorem rearmed_new (b : Broker) :
    (rearmed b).timers[b.tp.timers.length]? =
      some { deadline := b.tp.now + b.batchWindow.toNat, state := .pending } := by
  unfold rearmed
  simp only
  rw [← stopStored_length b]
  exact List.getElem?_concat_length _ _

/-! ## The invariant -/

theorem New_inv (w : Int) : Inv (New w) := by
  refine ⟨rfl, by simp [New], ?_⟩
  rintro j ⟨dl, h⟩
  simp [New, NewTimeProvider] at h

theorem step_inv (b b' : Broker) (op : Op) (hi : Inv b) (hs : b.step record op = some b') :
    Inv b' := by
  obtain ⟨hmu, hnd, ht⟩ := hi
  cases op with
  | setOnFlush fn =>
    simp only [Broker.step, SetOnFlush_eq b hmu, Option.some.injEq] at hs
    subst hs
    exact ⟨hmu, hnd, ht⟩
  | enqueue key data =>
    simp only [Broker.step, Enqueue_eq b hmu, Option.some.injEq] at hs
    subst hs
    refine ⟨hmu, enqueueQueue_keys_nodup _ _ _ hnd, ?_⟩
    intro j hj
    exact congrArg some (rearmed_pending b ht j hj).symm
  | timerFire id =>
    simp only [Broker.step] at hs
    cases he : b.tp.expire id with
    | none => simp [Broker.timerFire, he] at hs
    | some tp =>
      rw [timerFire_record_eq b hmu id tp he, Option.some.injEq] at hs
      subst hs
      refine ⟨hmu, by simp, ?_⟩
      intro j hj
      rcases (expire_some b.tp tp id he).2.2 j with h | h
      · exact absurd hj h
      · exact ht j h.2
  | flushNow =>
    simp only [Broker.step, FlushNow_record_eq b hmu, Option.some.injEq] at hs
    subst hs
    refine ⟨hmu, by simp, ?_⟩
    intro j hj
    exact ht j (stopStored_pending b j hj).1
  | clear =>
    simp only [Broker.step, Clear_eq b hmu, Option.some.injEq] at hs
    subst hs
    refine ⟨hmu, by simp, ?_⟩
    intro j hj
    exact absurd hj (stopStored_none_pending b ht j)
  | queueLength =>
    simp only [Broker.step, QueueLength_eq b hmu, Option.map_some', Option.some.injEq] at hs
    subst hs
    exact ⟨hmu, hnd, ht⟩
  | advance dt =>
    simp only [Broker.step, Option.some.injEq] at hs
    subst hs
    exact ⟨hmu, hnd, ht⟩

theorem exec_inv (ops : List Op) (b b' : Broker) (hi : Inv b)
    (hs : b.exec record ops = some b') : Inv b' := by
  induction ops generalizing b with
  | nil =>
    simp only [Broker.exec, Option.some.injEq] at hs
    subst hs
    exact hi
  | cons op ops ih =>
    simp only [Broker.exec] at hs
    cases h1 : b.step record op with
    | none => simp [h1] at hs
    | some b1 =>
      rw [h1] at hs
      exact ih b1 (step_inv b b1 op hi h1) hs

theorem reachable_inv (w : Int) (s : Broker) (h : Reachable w s) : Inv s := by
  obtain ⟨ops, hops⟩ := h
  exact exec_inv ops (New w) s (New_inv w) hops

theorem filter_pending_length_le_one (l : List TimerRec)
    (h : ∀ (i j : Nat) (ri rj : TimerRec), l[i]? = some ri → l[j]? = some rj →
      ri.state = .pending → rj.state = .pending → i = j) :
    (l.filter (fun r => r.state = .pending)).length ≤ 1 := by
  induction l with
  | nil => simp
  | cons a rest ih =>
    have hrest : ∀ (i j : Nat) (ri rj : TimerRec), rest[i]? = some ri → rest[j]? = some rj →
        ri.state = .pending → rj.state = .pending → i = j := by
      intro i j ri rj hi hj pi pj
      have := h (i + 1) (j + 1) ri rj (by simpa using hi) (by simpa using hj) pi pj
      omega
    by_cases ha : a.state = .pending
    · have hnone : rest.filter (fun r => r.state = .pending) = [] := by
        rw [List.filter_eq_nil_iff]
        intro r hr
        simp only [decide_eq_true_eq]
        intro pr
        obtain ⟨k, hk⟩ := List.getElem?_of_mem hr
        have := h 0 (k + 1) a r (by simp) (by simpa using hk) ha pr
        omega
      simp [List.filter_cons, ha, hnone]
    · simpa [List.filter_cons, ha] using ih hrest

theorem pendingCount_le_one (b : Broker) (hi : TimerInv b) : b.tp.pendingCount ≤ 1 := by
  unfold TimeProvider.pendingCount
  apply filter_pending_length_le_one
  intro i j ri rj h1 h2 p1 p2
  have e1 : b.timer = some i := hi i ⟨ri.deadline, by rw [h1, ← p1]⟩
  have e2 : b.timer = some j := hi j ⟨rj.deadline, by rw [h2, ← p2]⟩
  rw [e1] at e2
  exact Option.some.inj e2

/-! ## Claims -/

/-- C1: any sequence of `Enqueue` calls on a broker created by `New` succeeds and leaves
in the queue exactly one item per distinct key, in first-submission order, each holding
the fragments submitted under its key in submission order; no handler has been called.
With a handler `h` registered, a subsequent flush hands `h` exactly this queue, once
(nothing when there was no submission), and leaves `QueueLength() == 0`.  The scenario
`a:A, a:B, b:C` yields `[{a:[A,B]}, {b:[C]}]`. -/
theorem C1_enqueue_consolidates_in_first_arrival_order (w : Int) (h : Nat)
    (kds : List (String × List UInt8)) :
    (∃ s, (New w).enqueueAll kds = some s ∧ s.queue = grouped kds ∧ s.calls = []) ∧
    (∃ s s', ((New w).SetOnFlush (some h)).bind (fun b => b.enqueueAll kds) = some s ∧
      s.queue = grouped kds ∧ s.calls = [] ∧
      s.flush record = some s' ∧
      s'.calls = (if kds = [] then [] else [{ handler := h, items := grouped kds }]) ∧
      s'.QueueLength = some (0, s')) ∧
    grouped [("a", [65]), ("a", [66]), ("b", [67])] =
      [{ Key := "a", Data := [[65], [66]] }, { Key := "b", Data := [[67]] }] := by
  refine ⟨?_, ?_, by rfl⟩
  · obtain ⟨s, hs, hq, _, hc, _, _⟩ := enqueueAll_spec kds (New w) rfl
    exact ⟨s, hs, by rw [hq]; exact foldl_enqueueQueue_grouped kds, by rw [hc]; rfl⟩
  · obtain ⟨s, hs, hq, hmu, hc, hf, _⟩ :=
      enqueueAll_spec kds { New w with onFlush := some h } rfl
    have hq' : s.queue = grouped kds := by rw [hq]; exact foldl_enqueueQueue_grouped kds
    have hc' : s.calls = [] := by rw [hc]; rfl
    by_cases hk : kds = []
    · have hqe : s.queue = [] := by rw [hq', hk]; rfl
      refine ⟨s, s, ?_, hq', hc', flush_empty record s hmu hqe, by simp [hk, hc'], ?_⟩
      · rw [SetOnFlush_eq _ rfl]; exact hs
      · rw [QueueLength_eq s hmu, hqe]; rfl
    · have hqn : s.queue ≠ [] := by
        rw [hq']; exact fun e => hk ((grouped_eq_nil kds).mp e)
      refine ⟨s, _, ?_, hq', hc', flush_record s h hmu hqn hf, ?_, ?_⟩
      · rw [SetOnFlush_eq _ rfl]; exact hs
      · show s.calls ++ [{ handler := h, items := s.queue }] = _
        rw [hc', hq', if_neg hk]
        rfl
      · exact QueueLength_eq _ hmu

/-- C2: in every state reachable from `New w` by `Enqueue`, `SetOnFlush`, timer-fired
flush, `FlushNow` and `Clear` (and `QueueLength`, and time passing), no two items of the
queue share a key. -/
theorem C2_reachable_queue_keys_distinct (w : Int) (s : Broker) (h : Reachable w s) :
    s.queue.Pairwise (fun a b => a.Key ≠ b.Key) := by
  have hnd := (reachable_inv w s h).2.1
  exact (List.pairwise_map (R := (· ≠ ·))).mp hnd

theorem C2_reachable_queue_keys_distinct_witness :
    Reachable 500 scenarioState ∧
      scenarioState.queue.Pairwise (fun a b => a.Key ≠ b.Key) :=
  ⟨⟨scenarioOps, rfl⟩, C2_reachable_queue_keys_distinct 500 scenarioState ⟨scenarioOps, rfl⟩⟩

/-- C3: `FlushNow` on an unlocked broker with a non-empty queue and a registered handler
`h` calls `h` exactly once, before it returns, with the whole queue as it was before the
call (whatever the handler does with it); with a recording handler the trace grows by
exactly that one call, the queue is empty and `QueueLength() == 0` on return. -/
theorem C3_FlushNow_delivers_queue_once (b : Broker) (h : Nat) (hb : b.mu = false)
    (hq : b.queue ≠ []) (hf : b.onFlush = some h) :
    (∀ run : HandlerSem, b.FlushNow run =
      (run h b.queue { b with mu := true, queue := [], tp := stopStored b }).map
        Broker.Unlock) ∧
    ∃ s, b.FlushNow record = some s ∧
      s.calls = b.calls ++ [{ handler := h, items := b.queue }] ∧
      s.queue = [] ∧ s.QueueLength = some (0, s) := by
  constructor
  · intro run
    rw [FlushNow_eq, flush_handler run ({ b with tp := stopStored b } : Broker) h hb hq hf]
  · refine ⟨_, FlushNow_record_eq b hb, ?_, rfl, QueueLength_eq _ hb⟩
    simp [flushCalls, hf, hq]

theorem C3_FlushNow_delivers_queue_once_witness :
    (New 5000).exec record key1Ops = some (key1State 5000) ∧
    (key1State 5000).mu = false ∧ (key1State 5000).queue ≠ [] ∧
    (key1State 5000).onFlush = some 0 ∧
    ∃ s, (key1State 5000).FlushNow record = some s ∧
      s.calls = [{ handler := 0, items := [{ Key := "key1", Data := [[116, 101, 115, 116]] }] }] ∧
      s.queue = [] ∧ s.QueueLength = some (0, s) :=
  ⟨rfl, rfl, by simp [key1State], rfl,
    (C3_FlushNow_delivers_queue_once (key1State 5000) 0 rfl (by simp [key1State]) rfl).2⟩

theorem Lock_held (s : Broker) (hs : s.mu = true) : s.Lock = none := by
  simp [Broker.Lock, hs]

theorem flush_held (run : HandlerSem) (s : Broker) (hs : s.mu = true) : s.flush run = none := by
  simp [Broker.flush, Lock_held s hs]

theorem Enqueue_held (s : Broker) (hs : s.mu = true) (key : String) (data : List UInt8) :
    s.Enqueue key data = none := by
  simp [Broker.Enqueue, Lock_held s hs]

theorem FlushNow_held (run : HandlerSem) (s : Broker) (hs : s.mu = true) :
    s.FlushNow run = none := by
  rw [FlushNow_eq]
  exact flush_held run _ hs

theorem QueueLength_held (s : Broker) (hs : s.mu = true) : s.QueueLength = none := by
  simp [Broker.QueueLength, Lock_held s hs]

/-- C4, as stated, fails: in the test suite's flush scenario a handler that calls
`Enqueue`, `FlushNow` or `QueueLength` on the same broker never returns, and neither does
the flush that called it, while the same flush with a recording handler returns. -/
theorem C4_counterexample :
    (New 5000).exec record key1Ops = some (key1State 5000) ∧
    ((key1State 5000).flush record).isSome = true ∧
    (key1State 5000).flush (reentrantEnqueue "key2" [66]) = none ∧
    (key1State 5000).flush reentrantFlushNow = none ∧
    (key1State 5000).flush reentrantQueueLength = none :=
  ⟨rfl, rfl, rfl, rfl, rfl⟩

/-- C4 (amended): `flush` calls the handler while the broker's mutex is still held (the
unlock is deferred to the return of `flush`): the broker the handler sees has `mu = true`.
Every operation of the broker that takes the lock blocks on a held mutex, so a handler
that calls `Enqueue`, `FlushNow` or `QueueLength` on the same broker never returns and
neither does the flush. -/
theorem C4_handler_called_with_lock_held (run : HandlerSem) (b : Broker) (h : Nat)
    (hb : b.mu = false) (hq : b.queue ≠ []) (hf : b.onFlush = some h) :
    b.flush run = (run h b.queue { b with mu := true, queue := [] }).map Broker.Unlock ∧
    (∀ (s : Broker) (key : String) (data : List UInt8) (fn : Option Nat) (inner : HandlerSem),
      s.mu = true →
        s.Enqueue key data = none ∧ s.FlushNow inner = none ∧ s.QueueLength = none ∧
        s.Clear = none ∧ s.SetOnFlush fn = none ∧ s.flush inner = none) ∧
    (∀ (key : String) (data : List UInt8), b.flush (reentrantEnqueue key data) = none) ∧
    b.flush reentrantFlushNow = none ∧
    b.flush reentrantQueueLength = none := by
  refine ⟨flush_handler run b h hb hq hf, ?_, ?_, ?_, ?_⟩
  · intro s key data fn inner hs
    exact ⟨Enqueue_held s hs key data, FlushNow_held inner s hs, QueueLength_held s hs,
      by simp [Broker.Clear, Lock_held s hs], by simp [Broker.SetOnFlush, Lock_held s hs],
      flush_held inner s hs⟩
  · intro key data
    rw [flush_handler _ b h hb hq hf]
    simp [reentrantEnqueue, Enqueue_held]
  · rw [flush_handler _ b h hb hq hf]
    simp [reentrantFlushNow, FlushNow_held]
  · rw [flush_handler _ b h hb hq hf]
    simp [reentrantQueueLength, QueueLength_held]

theorem C4_handler_called_with_lock_held_witness :
    (key1State 5000).mu = false ∧ (key1State 5000).queue ≠ [] ∧
    (key1State 5000).onFlush = some 0 ∧
    (key1State 5000).flush record =
      (record 0 (key1State 5000).queue
        { key1State 5000 with mu := true, queue := [] }).map Broker.Unlock ∧
    (key1State 5000).flush reentrantFlushNow = none :=
  ⟨rfl, by simp [key1State], rfl,
    (C4_handler_called_with_lock_held record (key1State 5000) 0 rfl
      (by simp [key1State]) rfl).1,
    (C4_handler_called_with_lock_held record (key1State 5000) 0 rfl
      (by simp [key1State]) rfl).2.2.2.1⟩

/-! ## Debounce -/

theorem expire_of_pending (tp : TimeProvider) (id dl : Nat)
    (h : tp.timers[id]? = some { deadline := dl, state := .pending }) :
    tp.expire id = if dl ≤ tp.now then
      some { tp with timers := tp.timers.set id { deadline := dl, state := .fired } }
    else none := by
  unfold TimeProvider.expire
  rw [h]
  simp

theorem enqueueAt_spec (b : Broker) (e : Nat × String × List UInt8) (hb : b.mu = false)
    (hi : TimerInv b) (ht : b.tp.now ≤ e.1) :
    ∃ s, b.enqueueAt e = some s ∧ s.mu = false ∧ TimerInv s ∧ s.tp.now = e.1 ∧
      s.queue = enqueueQueue b.queue e.2.1 e.2.2 ∧ s.calls = b.calls ∧
      s.onFlush = b.onFlush ∧ s.batchWindow = b.batchWindow ∧
      s.timer = some b.tp.timers.length ∧
      ArmedAt s.tp b.tp.timers.length (e.1 + b.batchWindow.toNat) := by
  have hi' : TimerInv (b.advance (e.1 - b.tp.now)) := hi
  have hnow : (b.advance (e.1 - b.tp.now)).tp.now = e.1 := by
    simp only [Broker.advance, TimeProvider.advance]; omega
  refine ⟨_, Enqueue_eq (b.advance (e.1 - b.tp.now)) hb e.2.1 e.2.2, hb, ?_, ?_, rfl, rfl, rfl,
    rfl, rfl, ?_, ?_⟩
  · intro j hj
    exact congrArg some (rearmed_pending _ hi' j hj).symm
  · simp only [rearmed]; exact hnow
  · have := rearmed_new (b.advance (e.1 - b.tp.now))
    rw [hnow] at this
    exact this
  · intro j hj
    exact rearmed_pending _ hi' j hj

theorem enqueueAllAt_spec (es : List (Nat × String × List UInt8)) (b : Broker)
    (hb : b.mu = false) (hi : TimerInv b) (hsorted : es.Pairwise (fun a b => a.1 ≤ b.1))
    (hnow : ∀ e ∈ es, b.tp.now ≤ e.1) :
    ∃ s, b.enqueueAllAt es = some s ∧ s.mu = false ∧ TimerInv s ∧
      s.queue = es.foldl (fun q e => enqueueQueue q e.2.1 e.2.2) b.queue ∧
      s.calls = b.calls ∧ s.onFlush = b.onFlush ∧ s.batchWindow = b.batchWindow ∧
      (∀ t, b.tp.now ≤ t → (∀ e ∈ es, e.1 ≤ t) → s.tp.now ≤ t) := by
  induction es generalizing b with
  | nil => exact ⟨b, rfl, hb, hi, rfl, rfl, rfl, rfl, fun t h _ => h⟩
  | cons e es ih =>
    obtain ⟨s1, h1, hmu1, hi1, hn1, hq1, hc1, hf1, hw1, _, _⟩ :=
      enqueueAt_spec b e hb hi (hnow e (List.mem_cons_self _ _))
    rw [List.pairwise_cons] at hsorted
    obtain ⟨s, h2, hmu, hi2, hq, hc, hf, hw, hbound⟩ :=
      ih s1 hmu1 hi1 hsorted.2 (fun e' he' => by rw [hn1]; exact hsorted.1 e' he')
    refine ⟨s, ?_, hmu, hi2, ?_, hc.trans hc1, hf.trans hf1, hw.trans hw1, ?_⟩
    · simp only [Broker.enqueueAllAt, h1]
      exact h2
    · rw [hq, hq1]; rfl
    · intro t _ hall
      apply hbound t
      · rw [hn1]; exact hall e (List.mem_cons_self _ _)
      · intro e' he'
        exact hall e' (List.mem_cons_of_mem _ he')

theorem enqueueAllAt_append (p : List (Nat × String × List UInt8))
    (e : Nat × String × List UInt8) (b : Broker) :
    b.enqueueAllAt (p ++ [e]) = (b.enqueueAllAt p).bind (fun s => s.enqueueAt e) := by
  induction p generalizing b with
  | nil =>
    simp only [List.nil_append, Broker.enqueueAllAt, Option.some_bind]
    cases b.enqueueAt e <;> rfl
  | cons a p ih =>
    simp only [List.cons_append, Broker.enqueueAllAt]
    cases b.enqueueAt a with
    | none => rfl
    | some b1 => exact ih b1

theorem timerFire_none_of_expire_none (run : HandlerSem) (b : Broker) (id : Nat)
    (h : b.tp.expire id = none) : b.timerFire run id = none := by
  simp [Broker.timerFire, h]

theorem expire_none_of_not_pending (tp : TimeProvider) (id : Nat) (h : ¬ Pending tp id) :
    tp.expire id = none :=
  expire_none_of_not_due tp id (fun dl hdl => absurd ⟨dl, hdl⟩ h)

theorem armed_expire_early (tp : TimeProvider) (id dl : Nat) (ha : ArmedAt tp id dl)
    (dt j : Nat) (hdt : tp.now + dt < dl) : (tp.advance dt).expire j = none := by
  apply expire_none_of_not_due
  intro dl' hj
  have hj' : tp.timers[j]? = some { deadline := dl', state := .pending } := hj
  have e : j = id := ha.2 j ⟨dl', hj'⟩
  subst e
  rw [ha.1] at hj'
  cases hj'
  exact hdt

theorem armed_expire_other (tp : TimeProvider) (id dl : Nat) (ha : ArmedAt tp id dl)
    (dt j : Nat) (hj : j ≠ id) : (tp.advance dt).expire j = none := by
  apply expire_none_of_not_pending
  rintro ⟨dl', h⟩
  exact hj (ha.2 j ⟨dl', h⟩)

theorem armed_expire_due (tp : TimeProvider) (id dl : Nat) (ha : ArmedAt tp id dl)
    (dt : Nat) (hdt : dl ≤ tp.now + dt) :
    ∃ tp', (tp.advance dt).expire id = some tp' ∧ ∀ j, ¬ Pending tp' j := by
  have h1 : (tp.advance dt).timers[id]? = some { deadline := dl, state := .pending } := ha.1
  have h2 : dl ≤ (tp.advance dt).now := hdt
  have he := expire_of_pending _ _ _ h1
  rw [if_pos h2] at he
  refine ⟨_, he, ?_⟩
  intro j hj
  rcases (expire_some _ _ id he).2.2 j with h | h
  · exact h hj
  · exact h.1 (ha.2 j h.2)

theorem sorted_of_debounced (w : Int) (l : List (Nat × String × List UInt8))
    (h : List.Chain' (Debounced w) l) : l.Pairwise (fun a b => a.1 ≤ b.1) := by
  haveI : IsTrans (Nat × String × List UInt8) (fun a b => a.1 ≤ b.1) :=
    ⟨fun _ _ _ h1 h2 => Nat.le_trans h1 h2⟩
  exact List.chain'_iff_pairwise.mp (h.imp (fun _ _ hab => hab.1))

/-- C5: on a fresh broker (handler `fn` registered or not), let `Enqueue` be called at the
instants of `p ++ e :: q`, in time order and each less than `batchWindow` after the
previous one, and consider the state `s` just after the call at `e.1`.  Up to then no
handler was called.  No timer can fire at any instant before `e.1 + batchWindow`, in
particular none up to the next call (the head of `q`).  If the calls stop at `e`, then at
any instant from `e.1 + batchWindow` on exactly one timer can fire; its flush hands all
pending items to the handler in one call and empties the queue, and after it no timer can
fire any more. -/
theorem C5_debounce (w : Int) (fn : Option Nat) (p : List (Nat × String × List UInt8))
    (e : Nat × String × List UInt8) (q : List (Nat × String × List UInt8))
    (hchain : List.Chain' (Debounced w) (p ++ e :: q)) :
    ∃ s, ((New w).SetOnFlush fn).bind (fun b => b.enqueueAllAt (p ++ [e])) = some s ∧
      s.tp.now = e.1 ∧ s.calls = [] ∧ s.queue = grouped ((p ++ [e]).map Prod.snd) ∧
      s.queue ≠ [] ∧
      (∀ (run : HandlerSem) (dt id : Nat), (e.1 : Int) + dt < e.1 + w →
        (s.advance dt).timerFire run id = none) ∧
      (∀ e', q.head? = some e' → ∀ (run : HandlerSem) (dt id : Nat), e.1 + dt ≤ e'.1 →
        (s.advance dt).timerFire run id = none) ∧
      (∀ dt : Nat, (e.1 : Int) + w ≤ e.1 + dt →
        ∃ id s', (s.advance dt).timerFire record id = some s' ∧
          (∀ (run : HandlerSem) (id' : Nat), id' ≠ id →
            (s.advance dt).timerFire run id' = none) ∧
          s'.queue = [] ∧
          s'.calls = (match fn with
            | some h => [{ handler := h, items := s.queue }]
            | none => []) ∧
          ∀ (run : HandlerSem) (dt' id' : Nat), (s'.advance dt').timerFire run id' = none) := by
  have hpe : List.Chain' (Debounced w) (p ++ [e]) :=
    hchain.prefix ⟨q, by simp⟩
  have hsorted := sorted_of_debounced w (p ++ [e]) hpe
  rw [List.pairwise_append] at hsorted
  obtain ⟨hsp, _, hpe'⟩ := hsorted
  obtain ⟨sp, h1, hmu1, hi1, hq1, hc1, hf1, hw1, hbound⟩ :=
    enqueueAllAt_spec p { New w with onFlush := fn } rfl (New_inv w).2.2 hsp
      (fun _ _ => Nat.zero_le _)
  have hnow1 : sp.tp.now ≤ e.1 :=
    hbound e.1 (Nat.zero_le _) (fun e' he' => hpe' e' he' e (List.mem_singleton_self e))
  obtain ⟨s, h2, hmu, hi, hnow, hq, hc, hf, hw, htimer, harmed⟩ :=
    enqueueAt_spec sp e hmu1 hi1 hnow1
  have hw' : s.batchWindow = w := hw.trans hw1
  have hf' : s.onFlush = fn := hf.trans hf1
  have hqueue : s.queue = grouped ((p ++ [e]).map Prod.snd) := by
    rw [hq, hq1, ← foldl_enqueueQueue_grouped, List.foldl_map, List.foldl_append]
    rfl
  have hne : s.queue ≠ [] := by
    rw [hqueue]
    intro h0
    have := (grouped_eq_nil _).mp h0
    simp at this
  have hwsp : sp.batchWindow = w := hw1
  rw [hwsp] at harmed
  refine ⟨s, ?_, hnow, hc.trans hc1, hqueue, hne, ?_, ?_, ?_⟩
  · rw [SetOnFlush_eq _ rfl, Option.some_bind, enqueueAllAt_append, h1, Option.some_bind]
    exact h2
  · intro run dt id hdt
    apply timerFire_none_of_expire_none
    apply armed_expire_early s.tp _ _ harmed dt id
    rw [hnow]
    omega
  · intro e' he' run dt id hdt
    have hd : Debounced w e e' := by
      cases q with
      | nil => simp at he'
      | cons a q' =>
        simp only [List.head?_cons, Option.some.injEq] at he'
        subst he'
        have : List.Chain' (Debounced w) (e :: a :: q') := hchain.suffix ⟨p, rfl⟩
        exact (List.chain'_cons.mp this).1
    apply timerFire_none_of_expire_none
    apply armed_expire_early s.tp _ _ harmed dt id
    rw [hnow]
    have := hd.2
    omega
  · intro dt hdt
    have hdue : e.1 + w.toNat ≤ s.tp.now + dt := by rw [hnow]; omega
    obtain ⟨tp', he, hnone⟩ := armed_expire_due s.tp _ _ harmed dt hdue
    refine ⟨sp.tp.timers.length, _, timerFire_record_eq (s.advance dt) hmu _ tp' he, ?_, rfl,
      ?_, ?_⟩
    · intro run id' hid
      exact timerFire_none_of_expire_none run _ id' (armed_expire_other s.tp _ _ harmed dt id' hid)
    · show s.calls ++ flushCalls (s.advance dt) = _
      rw [hc, hc1]
      have : flushCalls (s.advance dt) =
          (match s.onFlush with
            | some h => [{ handler := h, items := s.queue }]
            | none => []) := by
        unfold flushCalls
        simp only [Broker.advance]
        cases s.onFlush with
        | none => rfl
        | some h => simp [hne]
      rw [this, hf']
      rfl
    · intro run dt' id'
      apply timerFire_none_of_expire_none
      apply expire_none_of_not_pending
      exact hnone id'

theorem C5_debounce_witness :
    List.Chain' (Debounced 50)
      ([(0, "a", [65]), (30, "a", [66])] ++ (60, "b", [67]) :: []) ∧
    ∃ s, ((New 50).SetOnFlush (some 0)).bind
        (fun b => b.enqueueAllAt ([(0, "a", [65]), (30, "a", [66])] ++ [(60, "b", [67])]))
        = some s ∧
      s.tp.now = 60 ∧ s.calls = [] ∧
      (∀ (run : HandlerSem) (dt id : Nat), ((60 : Nat) : Int) + dt < (60 : Nat) + 50 →
        (s.advance dt).timerFire run id = none) ∧
      (New 50).exec record (key1Ops ++ [.advance 49, .timerFire 0]) = none ∧
      (New 50).exec record (key1Ops ++ [.advance 50, .timerFire 0]) = some key1Flushed ∧
      key1Flushed.QueueLength = some (0, key1Flushed) := by
  have hch : List.Chain' (Debounced 50)
      ([(0, "a", [65]), (30, "a", [66])] ++ (60, "b", [67]) :: []) := by
    simp [Debounced]
  obtain ⟨s, h1, h2, h3, _, _, h4, _⟩ :=
    C5_debounce 50 (some 0) [(0, "a", [65]), (30, "a", [66])] (60, "b", [67]) [] hch
  exact ⟨hch, s, h1, h2, h3, h4, rfl, rfl, rfl⟩

/-! ## Rearming, pending timers, empty flushes, discarding, counting -/

/-- C6: every `Enqueue` on an unlocked broker, whether it consolidates or appends, first
mutates the queue and then rearms: the timer table is the old one with the stored handle
(if any) stopped, extended by one fresh pending timer due `batchWindow` ms from now, and
that fresh handle is the one stored.  The fresh timer cannot fire earlier, and from its
deadline on its firing runs `flush`. -/
theorem C6_enqueue_always_rearms (b : Broker) (hb : b.mu = false) (key : String)
    (data : List UInt8) :
    ∃ s, b.Enqueue key data = some s ∧
      b.Enqueue key data =
        some (({ b with mu := true, queue := enqueueQueue b.queue key data } :
          Broker).resetTimerLocked).Unlock ∧
      (consolidate b.queue key data = none →
        s.queue = b.queue ++ [{ Key := key, Data := [data] }]) ∧
      (∀ q, consolidate b.queue key data = some q → s.queue = q) ∧
      s.timer = some b.tp.timers.length ∧
      (∀ t, b.timer = some t → s.tp.timers = (b.tp.Stop t).timers ++
        [{ deadline := b.tp.now + b.batchWindow.toNat, state := .pending }]) ∧
      (b.timer = none → s.tp.timers = b.tp.timers ++
        [{ deadline := b.tp.now + b.batchWindow.toNat, state := .pending }]) ∧
      s.tp.timers[b.tp.timers.length]? =
        some { deadline := b.tp.now + b.batchWindow.toNat, state := .pending } ∧
      (∀ (run : HandlerSem) (dt : Nat), dt < b.batchWindow.toNat →
        (s.advance dt).timerFire run b.tp.timers.length = none) ∧
      (∀ (run : HandlerSem) (dt : Nat), b.batchWindow.toNat ≤ dt →
        (s.advance dt).timerFire run b.tp.timers.length =
          ({ s with
              tp := {
                now := b.tp.now + dt,
                timers := s.tp.timers.set b.tp.timers.length
                  { deadline := b.tp.now + b.batchWindow.toNat, state := .fired } } } :
            Broker).flush run) := by
  refine ⟨_, Enqueue_eq b hb key data, ?_, ?_, ?_, rfl, ?_, ?_, rearmed_new b, ?_, ?_⟩
  · rw [Enqueue_eq b hb key data, resetTimerLocked_eq]
    simp [Broker.Unlock, rearmed, stopStored, hb]
  · intro hc
    simp [enqueueQueue, hc]
  · intro q hc
    simp [enqueueQueue, hc]
  · intro t ht
    simp [rearmed, stopStored, ht]
  · intro ht
    simp [rearmed, stopStored, ht]
  · intro run dt hdt
    have hp := rearmed_new b
    simp only [Broker.timerFire, Broker.advance, TimeProvider.advance]
    rw [expire_of_pending { now := (rearmed b).now + dt, timers := (rearmed b).timers } _ _ hp]
    have : ¬ (b.tp.now + b.batchWindow.toNat ≤ (rearmed b).now + dt) := by
      simp only [rearmed]; omega
    simp [this]
  · intro run dt hdt
    have hp := rearmed_new b
    simp only [Broker.timerFire, Broker.advance, TimeProvider.advance]
    rw [expire_of_pending { now := (rearmed b).now + dt, timers := (rearmed b).timers } _ _ hp]
    have : b.tp.now + b.batchWindow.toNat ≤ (rearmed b).now + dt := by
      simp only [rearmed]; omega
    simp only [this, if_true]
    rfl

theorem C6_enqueue_always_rearms_witness :
    scenarioState.mu = false ∧
    ∃ s, scenarioState.Enqueue "a" [68] = some s ∧
      s.timer = some 3 ∧
      s.tp.timers = [{ deadline := 500, state := .stopped },
                     { deadline := 510, state := .stopped },
                     { deadline := 510, state := .stopped },
                     { deadline := 510, state := .pending }] := by
  refine ⟨rfl, ?_⟩
  obtain ⟨s, hs, _, _, _, ht, hstop, _⟩ :=
    C6_enqueue_always_rearms scenarioState rfl "a" [68]
  exact ⟨s, hs, ht, hstop 2 rfl⟩

/-- C7: in every reachable state at most one timer is pending (scheduled, not fired, not
stopped), and a pending timer is the stored handle.  Hence no operation replaces or drops
a stored handle leaving it pending: it has been stopped (or has fired) by then. -/
theorem C7_at_most_one_pending_timer (w : Int) (s : Broker) (h : Reachable w s) :
    s.tp.pendingCount ≤ 1 ∧
    (∀ j, Pending s.tp j → s.timer = some j) ∧
    (∀ (op : Op) (s' : Broker) (t : Nat), s.step record op = some s' →
      s.timer = some t → s'.timer ≠ some t → ¬ Pending s'.tp t) := by
  have hi := reachable_inv w s h
  refine ⟨pendingCount_le_one s hi.2.2, hi.2.2, ?_⟩
  intro op s' t hstep _ hne hp
  exact hne ((step_inv s s' op hi hstep).2.2 t hp)

theorem C7_at_most_one_pending_timer_witness :
    Reachable 500 scenarioState ∧ scenarioState.tp.pendingCount ≤ 1 :=
  ⟨⟨scenarioOps, rfl⟩,
    (C7_at_most_one_pending_timer 500 scenarioState ⟨scenarioOps, rfl⟩).1⟩

/-- C8: on an unlocked broker with an empty queue, `flush` returns the broker unchanged
and `FlushNow` changes nothing but the stopped timer, whatever the handler is: the handler
is not called and the queue stays empty.  This covers the fresh broker and a broker just
emptied by a flush or by `Clear`. -/
theorem C8_flush_of_empty_queue_calls_nothing (run : HandlerSem) (b : Broker)
    (hb : b.mu = false) (hq : b.queue = []) :
    b.flush run = some b ∧
    b.FlushNow run = some { b with tp := stopStored b } ∧
    (∃ s, b.FlushNow run = some s ∧ s.calls = b.calls ∧ s.queue = []) ∧
    (∀ w : Int, (New w).FlushNow run = some (New w)) ∧
    (∀ c c' : Broker, c.mu = false → (c.flush record = some c' ∨ c.Clear = some c') →
      ∃ s, c'.FlushNow run = some s ∧ s.calls = c'.calls ∧ s.queue = []) := by
  have hF : ∀ c : Broker, c.mu = false → c.queue = [] →
      c.FlushNow run = some { c with tp := stopStored c } := by
    intro c hc hcq
    rw [FlushNow_eq]
    exact flush_empty run _ hc hcq
  refine ⟨flush_empty run b hb hq, hF b hb hq, ⟨_, hF b hb hq, rfl, hq⟩, ?_, ?_⟩
  · intro w
    exact hF (New w) rfl rfl
  · intro c c' hc hcc
    have hc' : c'.mu = false ∧ c'.queue = [] := by
      rcases hcc with h | h
      · rw [flush_record_eq c hc, Option.some.injEq] at h
        subst h
        exact ⟨hc, rfl⟩
      · rw [Clear_eq c hc, Option.some.injEq] at h
        subst h
        exact ⟨hc, rfl⟩
    exact ⟨_, hF c' hc'.1 hc'.2, rfl, hc'.2⟩

theorem C8_flush_of_empty_queue_calls_nothing_witness :
    ({ New 5000 with onFlush := some 0 } : Broker).mu = false ∧
    ({ New 5000 with onFlush := some 0 } : Broker).queue = [] ∧
    ({ New 5000 with onFlush := some 0 } : Broker).FlushNow record =
      some { New 5000 with onFlush := some 0 } :=
  ⟨rfl, rfl,
    (C8_flush_of_empty_queue_calls_nothing record { New 5000 with onFlush := some 0 }
      rfl rfl).2.1⟩

/-- C9: `Clear` on an unlocked broker, whatever its queue and handler, returns with an
empty queue, `QueueLength() == 0`, and the trace of handler calls unchanged. -/
theorem C9_Clear_empties_without_calling (b : Broker) (hb : b.mu = false) :
    ∃ s, b.Clear = some s ∧ s.queue = [] ∧ s.QueueLength = some (0, s) ∧
      s.calls = b.calls ∧ s.onFlush = b.onFlush :=
  ⟨_, Clear_eq b hb, rfl, QueueLength_eq _ hb, rfl, rfl⟩

theorem C9_Clear_empties_without_calling_witness :
    (New 5000).enqueueAll [("key1", [65]), ("key2", [66])] = some twoKeysState ∧
    twoKeysState.mu = false ∧
    ∃ s, twoKeysState.Clear = some s ∧ s.queue = [] ∧ s.QueueLength = some (0, s) ∧
      s.calls = twoKeysState.calls ∧ s.onFlush = twoKeysState.onFlush :=
  ⟨rfl, rfl, C9_Clear_empties_without_calling twoKeysState rfl⟩

theorem firstKeys_length (ks : List String) : (firstKeys ks).length = ks.toFinset.card := by
  rw [← List.toFinset_card_of_nodup (firstKeys_nodup ks)]
  congr 1
  ext x
  simp [firstKeys_mem]

/-- C10: after any sequence of `Enqueue` calls on a fresh broker, `QueueLength()` is the
number of distinct keys submitted, however many fragments each key received; and on any
unlocked broker `QueueLength()` returns the length of the queue and the broker exactly
as it was. -/
theorem C10_QueueLength_counts_distinct_keys (w : Int) (kds : List (String × List UInt8))
    (b : Broker) (hb : b.mu = false) :
    (∃ s, (New w).enqueueAll kds = some s ∧
      s.QueueLength = some ((kds.map Prod.fst).toFinset.card, s)) ∧
    b.QueueLength = some (b.queue.length, b) := by
  refine ⟨?_, QueueLength_eq b hb⟩
  obtain ⟨s, hs, hq, hmu, _⟩ := enqueueAll_spec kds (New w) rfl
  refine ⟨s, hs, ?_⟩
  rw [QueueLength_eq s hmu, hq]
  have : (List.foldl (fun q kd => enqueueQueue q kd.1 kd.2) (New w).queue kds).length =
      (kds.map Prod.fst).toFinset.card := by
    show (List.foldl (fun q kd => enqueueQueue q kd.1 kd.2) [] kds).length = _
    rw [foldl_enqueueQueue_grouped, ← firstKeys_length]
    simp [grouped]
  rw [this]

theorem C10_QueueLength_counts_distinct_keys_witness :
    scenarioState.mu = false ∧
    (∃ s, (New 500).enqueueAll [("key1", [65]), ("key2", [66]), ("key3", [67]), ("key1", [68])]
        = some s ∧ s.QueueLength = some (3, s)) ∧
    scenarioState.QueueLength = some (2, scenarioState) := by
  have h := C10_QueueLength_counts_distinct_keys 500
    [("key1", [65]), ("key2", [66]), ("key3", [67]), ("key1", [68])] scenarioState rfl
  have hc : (List.map Prod.fst
      [("key1", ([65] : List UInt8)), ("key2", [66]), ("key3", [67]), ("key1", [68])]).toFinset.card
      = 3 := by
    decide
  rw [hc] at h
  exact ⟨rfl, h.1, h.2⟩

/-! ## One key, repeated flushes, missing handler -/

theorem enqueueQueue_ne_nil (q : List Item) (key : String) (data : List UInt8) :
    enqueueQueue q key data ≠ [] := by
  unfold enqueueQueue
  cases q with
  | nil => simp [consolidate]
  | cons it rest =>
    by_cases h : it.Key = key
    · simp [consolidate, h]
    · cases hc : consolidate rest key data <;> simp [consolidate, h, hc]

theorem foldl_enqueueQueue_same_key (k : String) (ds acc : List (List UInt8)) :
    (ds.map (fun x => (k, x))).foldl (fun q kd => enqueueQueue q kd.1 kd.2)
      [{ Key := k, Data := acc }] = [{ Key := k, Data := acc ++ ds }] := by
  induction ds generalizing acc with
  | nil => simp
  | cons d ds ih =>
    simp only [List.map_cons, List.foldl_cons]
    have : enqueueQueue [{ Key := k, Data := acc }] k d = [{ Key := k, Data := acc ++ [d] }] := by
      simp [enqueueQueue, consolidate]
    rw [this, ih]
    simp

/-- C11: a non-empty sequence of `Enqueue(k, d_1)`, ..., `Enqueue(k, d_n)` with one key
on a fresh broker (handler registered or not) leaves exactly one item, for `k`, with
`Data == [d_1, ..., d_n]` in call order, and `QueueLength() == 1`; the flush that follows
hands the handler exactly that one item.  The test `key1:A, key1:B, key1:C` gives 1. -/
theorem C11_same_key_consolidates_into_one_item (w : Int) (h : Nat) (k : String)
    (d : List UInt8) (ds : List (List UInt8)) :
    (∃ s, (New w).enqueueAll ((d :: ds).map (fun x => (k, x))) = some s ∧
      s.queue = [{ Key := k, Data := d :: ds }] ∧ s.QueueLength = some (1, s)) ∧
    (∃ s s', ((New w).SetOnFlush (some h)).bind
        (fun b => b.enqueueAll ((d :: ds).map (fun x => (k, x)))) = some s ∧
      s.queue = [{ Key := k, Data := d :: ds }] ∧ s.QueueLength = some (1, s) ∧
      s.flush record = some s' ∧
      s'.calls = [{ handler := h, items := [{ Key := k, Data := d :: ds }] }] ∧
      s'.queue = []) ∧
    ((New 500).enqueueAll [("key1", [65]), ("key1", [66]), ("key1", [67])]).bind
      (fun s => s.QueueLength.map Prod.fst) = some 1 := by
  have hfold : ∀ q0 : List Item, q0 = [] →
      ((d :: ds).map (fun x => (k, x))).foldl (fun q kd => enqueueQueue q kd.1 kd.2) q0 =
        [{ Key := k, Data := d :: ds }] := by
    intro q0 hq0
    subst hq0
    simp only [List.map_cons, List.foldl_cons]
    have : enqueueQueue [] k d = [{ Key := k, Data := [d] }] := by
      simp [enqueueQueue, consolidate]
    rw [this, foldl_enqueueQueue_same_key]
    simp
  refine ⟨?_, ?_, by rfl⟩
  · obtain ⟨s, hs, hq, hmu, _⟩ := enqueueAll_spec ((d :: ds).map (fun x => (k, x))) (New w) rfl
    have hq' := hq.trans (hfold _ rfl)
    refine ⟨s, hs, hq', ?_⟩
    rw [QueueLength_eq s hmu, hq']
    rfl
  · obtain ⟨s, hs, hq, hmu, hc, hf, _⟩ :=
      enqueueAll_spec ((d :: ds).map (fun x => (k, x))) { New w with onFlush := some h } rfl
    have hq' := hq.trans (hfold _ rfl)
    refine ⟨s, _, ?_, hq', ?_, flush_record s h hmu (by rw [hq']; simp) hf, ?_, rfl⟩
    · rw [SetOnFlush_eq _ rfl]; exact hs
    · rw [QueueLength_eq s hmu, hq']; rfl
    · show s.calls ++ [{ handler := h, items := s.queue }] = _
      rw [hc, hq']
      rfl

theorem Stop_idem (tp : TimeProvider) (id : Nat) : (tp.Stop id).Stop id = tp.Stop id := by
  cases hr : tp.timers[id]? with
  | none =>
    have e : tp.Stop id = tp := by simp [TimeProvider.Stop, hr]
    rw [e, e]
  | some r =>
    by_cases hp : r.state = .pending
    · have e : tp.Stop id = { tp with timers := tp.timers.set id { r with state := .stopped } } := by
        simp [TimeProvider.Stop, hr, hp]
      rw [e]
      have hlt : id < tp.timers.length := by
        rcases List.getElem?_eq_some.mp hr with ⟨hlt, _⟩
        exact hlt
      simp [TimeProvider.Stop, List.getElem?_set, hlt]
    · have e : tp.Stop id = tp := by simp [TimeProvider.Stop, hr, hp]
      rw [e, e]

theorem stopStored_idem (b : Broker) (q : List Item) (c : List Invocation) :
    stopStored { b with tp := stopStored b, queue := q, calls := c } = stopStored b := by
  unfold stopStored
  cases ht : b.timer with
  | none => simp [ht]
  | some t => simp [ht, Stop_idem]

/-- C12: on any unlocked broker whose handlers only record, `FlushNow` followed at once
by a second `FlushNow` calls the handler at most once in total, and the second call is a
no-op: it returns the broker exactly as the first call left it, queue empty, trace
unchanged. -/
theorem C12_FlushNow_twice_is_FlushNow_once (b : Broker) (hb : b.mu = false) :
    ∃ s, b.FlushNow record = some s ∧ s.FlushNow record = some s ∧
      s.queue = [] ∧ s.calls.length ≤ b.calls.length + 1 ∧
      (b.FlushNow record).bind (fun s1 => s1.FlushNow record) = some s := by
  have h1 := FlushNow_record_eq b hb
  have h2 : ({ b with tp := stopStored b, queue := [], calls := b.calls ++ flushCalls b } :
      Broker).FlushNow record =
      some { b with tp := stopStored b, queue := [], calls := b.calls ++ flushCalls b } := by
    rw [FlushNow_eq, stopStored_idem]
    exact flush_empty record _ hb rfl
  refine ⟨_, h1, h2, rfl, ?_, ?_⟩
  · simp only [List.length_append, flushCalls]
    cases b.onFlush with
    | none => simp
    | some h => by_cases hq : b.queue = [] <;> simp [hq]
  · rw [h1, Option.some_bind]
    exact h2

theorem C12_FlushNow_twice_is_FlushNow_once_witness :
    (key1State 5000).mu = false ∧
    ∃ s, (key1State 5000).FlushNow record = some s ∧ s.FlushNow record = some s ∧
      s.queue = [] ∧ s.calls.length ≤ (key1State 5000).calls.length + 1 ∧
      ((key1State 5000).FlushNow record).bind (fun s1 => s1.FlushNow record) = some s :=
  ⟨rfl, C12_FlushNow_twice_is_FlushNow_once (key1State 5000) rfl⟩

/-- C13: a flush of an unlocked broker with no handler registered, whatever its queue
(non-empty in particular), from `flush` itself, from `FlushNow` or from an expiring
timer, returns normally whatever handlers exist, leaves the trace of handler calls
unchanged and empties the queue: the pending data are dropped and `QueueLength() == 0`. -/
theorem C13_flush_without_handler_drops_queue (run : HandlerSem) (b : Broker)
    (hb : b.mu = false) (hf : b.onFlush = none) :
    b.flush run = some { b with queue := [] } ∧
    b.FlushNow run = some { b with tp := stopStored b, queue := [] } ∧
    (∀ (id : Nat) (tp : TimeProvider), b.tp.expire id = some tp →
      b.timerFire run id = some { b with tp := tp, queue := [] }) ∧
    ({ b with queue := [] } : Broker).QueueLength = some (0, { b with queue := [] }) ∧
    ({ b with queue := [] } : Broker).calls = b.calls := by
  refine ⟨flush_no_handler run b hb hf, ?_, ?_, QueueLength_eq _ hb, rfl⟩
  · rw [FlushNow_eq]
    exact flush_no_handler run ({ b with tp := stopStored b } : Broker) hb hf
  · intro id tp he
    simp only [Broker.timerFire, he]
    exact flush_no_handler run ({ b with tp := tp } : Broker) hb hf

theorem C13_flush_without_handler_drops_queue_witness :
    twoKeysState.mu = false ∧ twoKeysState.queue ≠ [] ∧ twoKeysState.onFlush = none ∧
    twoKeysState.FlushNow record =
      some { twoKeysState with tp := stopStored twoKeysState, queue := [] } :=
  ⟨rfl, by simp [twoKeysState], rfl,
    (C13_flush_without_handler_drops_queue record twoKeysState rfl rfl).2.1⟩

/-! ## Handler replacement, settled brokers -/

theorem timerFire_of_pending (s : Broker) (hs : s.mu = false) (id dl dt : Nat)
    (hp : s.tp.timers[id]? = some { deadline := dl, state := .pending })
    (hdue : dl ≤ s.tp.now + dt) :
    ∃ s', (s.advance dt).timerFire record id = some s' ∧
      s'.calls = s.calls ++ flushCalls s ∧ s'.queue = [] := by
  have he := expire_of_pending (s.tp.advance dt) id dl hp
  have hdue' : dl ≤ (s.tp.advance dt).now := hdue
  rw [if_pos hdue'] at he
  exact ⟨_, timerFire_record_eq (s.advance dt) hs id _ he, rfl, rfl⟩

/-- C14: `SetOnFlush` on an unlocked broker replaces the handler and nothing else (queue,
timer handle, timer table and trace are unchanged).  After `SetOnFlush(f1)`,
`Enqueue`, `SetOnFlush(f2)`, a flush calls `f2`, once, with the whole queue, whatever the
handlers do, and with recording handlers the trace grows by that one call of `f2` and by
no call of `f1`; the same holds when the flush comes from the timer that was scheduled
while `f1` was still registered. -/
theorem C14_flush_uses_handler_registered_at_flush_time (b : Broker) (hb : b.mu = false)
    (f1 f2 : Nat) (key : String) (data : List UInt8) :
    (∀ fn : Option Nat, b.SetOnFlush fn = some { b with onFlush := fn }) ∧
    ∃ s, (b.SetOnFlush (some f1)).bind
        (fun b1 => (b1.Enqueue key data).bind (fun b2 => b2.SetOnFlush (some f2))) = some s ∧
      s.queue = enqueueQueue b.queue key data ∧ s.queue ≠ [] ∧ s.calls = b.calls ∧
      (∀ run : HandlerSem, s.flush run =
        (run f2 s.queue { s with mu := true, queue := [] }).map Broker.Unlock) ∧
      s.flush record =
        some { s with queue := [], calls := b.calls ++ [{ handler := f2, items := s.queue }] } ∧
      (∀ dt : Nat, b.batchWindow.toNat ≤ dt →
        ∃ s', (s.advance dt).timerFire record b.tp.timers.length = some s' ∧
          s'.calls = b.calls ++ [{ handler := f2, items := s.queue }] ∧ s'.queue = []) := by
  refine ⟨fun fn => SetOnFlush_eq b hb fn, ?_⟩
  have h1 := SetOnFlush_eq b hb (some f1)
  have h2 := Enqueue_eq ({ b with onFlush := some f1 } : Broker) hb key data
  have hne : enqueueQueue b.queue key data ≠ [] := enqueueQueue_ne_nil _ _ _
  refine ⟨{ b with
      onFlush := some f2
      queue := enqueueQueue b.queue key data
      tp := rearmed b
      timer := some b.tp.timers.length }, ?_, rfl, hne, rfl, ?_, ?_, ?_⟩
  · rw [h1, Option.some_bind, h2, Option.some_bind]
    exact SetOnFlush_eq _ (by exact hb) (some f2)
  · intro run
    exact flush_handler run _ f2 hb hne rfl
  · exact flush_record _ f2 hb hne rfl
  · intro dt hdt
    have hdue : b.tp.now + b.batchWindow.toNat ≤ (rearmed b).now + dt := by
      simp only [rearmed]; omega
    obtain ⟨s', hs', hc', hq'⟩ := timerFire_of_pending
      ({ b with
          onFlush := some f2
          queue := enqueueQueue b.queue key data
          tp := rearmed b
          timer := some b.tp.timers.length } : Broker) hb _ _ dt (rearmed_new b) hdue
    refine ⟨s', hs', ?_, hq'⟩
    rw [hc']
    simp [flushCalls, hne]

theorem C14_flush_uses_handler_registered_at_flush_time_witness :
    scenarioState.mu = false ∧
    ∃ s, (scenarioState.SetOnFlush (some 1)).bind
        (fun b1 => (b1.Enqueue "c" [68]).bind (fun b2 => b2.SetOnFlush (some 2))) = some s ∧
      s.flush record =
        some { s with queue := [], calls := [{ handler := 2, items := s.queue }] } := by
  obtain ⟨_, s, h1, _, _, _, _, h2, _⟩ :=
    C14_flush_uses_handler_registered_at_flush_time scenarioState rfl 1 2 "c" [68]
  exact ⟨rfl, s, h1, h2⟩

theorem pendingCount_eq_zero (tp : TimeProvider) (h : ∀ j, ¬ Pending tp j) :
    tp.pendingCount = 0 := by
  unfold TimeProvider.pendingCount
  rw [List.length_eq_zero, List.filter_eq_nil_iff]
  intro r hr
  simp only [decide_eq_true_eq]
  intro hp
  obtain ⟨j, hj⟩ := List.getElem?_of_mem hr
  exact h j ⟨r.deadline, by rw [hj, ← hp]⟩

theorem quiet_step (b b' : Broker) (op : Op) (hq : Quiet b) (hop : op.isEnqueue = false)
    (hs : b.step record op = some b') : Quiet b' ∧ b'.calls = b.calls := by
  obtain ⟨hmu, hqe, hnp⟩ := hq
  have hfc : flushCalls b = [] := by
    unfold flushCalls
    cases b.onFlush <;> simp [hqe]
  cases op with
  | setOnFlush fn =>
    simp only [Broker.step, SetOnFlush_eq b hmu, Option.some.injEq] at hs
    subst hs
    exact ⟨⟨hmu, hqe, hnp⟩, rfl⟩
  | enqueue key data => simp [Op.isEnqueue] at hop
  | timerFire id =>
    simp only [Broker.step] at hs
    rw [timerFire_none_of_expire_none record b id
      (expire_none_of_not_pending b.tp id (hnp id))] at hs
    cases hs
  | flushNow =>
    simp only [Broker.step, FlushNow_record_eq b hmu, Option.some.injEq] at hs
    subst hs
    refine ⟨⟨hmu, rfl, fun j hj => hnp j (stopStored_pending b j hj).1⟩, ?_⟩
    simp [hfc]
  | clear =>
    simp only [Broker.step, Clear_eq b hmu, Option.some.injEq] at hs
    subst hs
    exact ⟨⟨hmu, rfl, fun j hj => hnp j (stopStored_pending b j hj).1⟩, rfl⟩
  | queueLength =>
    simp only [Broker.step, QueueLength_eq b hmu, Option.map_some', Option.some.injEq] at hs
    subst hs
    exact ⟨⟨hmu, hqe, hnp⟩, rfl⟩
  | advance dt =>
    simp only [Broker.step, Option.some.injEq] at hs
    subst hs
    exact ⟨⟨hmu, hqe, hnp⟩, rfl⟩

theorem quiet_exec (ops : List Op) (b b' : Broker) (hq : Quiet b)
    (hops : ∀ op ∈ ops, op.isEnqueue = false) (hs : b.exec record ops = some b') :
    Quiet b' ∧ b'.calls = b.calls := by
  induction ops generalizing b with
  | nil =>
    simp only [Broker.exec, Option.some.injEq] at hs
    subst hs
    exact ⟨hq, rfl⟩
  | cons op ops ih =>
    simp only [Broker.exec] at hs
    cases h1 : b.step record op with
    | none => simp [h1] at hs
    | some b1 =>
      rw [h1] at hs
      obtain ⟨hq1, hc1⟩ := quiet_step b b1 op hq (hops op (List.mem_cons_self _ _)) h1
      obtain ⟨hq', hc'⟩ := ih b1 hq1 (fun o ho => hops o (List.mem_cons_of_mem _ ho)) hs
      exact ⟨hq', hc'.trans hc1⟩

/-- C15: from any reachable state, `FlushNow` and `Clear` return with no timer pending:
the handle that was stored has been stopped.  From then on no timer can fire at any
later instant, and along any further operations other than `Enqueue` the broker stays
without a pending timer and no handler is called. -/
theorem C15_no_pending_timer_after_FlushNow_or_Clear (w : Int) (s : Broker)
    (h : Reachable w s) :
    ∃ s1 s2, s.FlushNow record = some s1 ∧ s.Clear = some s2 ∧
      s1.tp.pendingCount = 0 ∧ s2.tp.pendingCount = 0 ∧
      (∀ j, ¬ Pending s1.tp j ∧ ¬ Pending s2.tp j) ∧
      (∀ (run : HandlerSem) (dt id : Nat),
        (s1.advance dt).timerFire run id = none ∧ (s2.advance dt).timerFire run id = none) ∧
      (∀ (ops : List Op) (s' : Broker), (∀ op ∈ ops, op.isEnqueue = false) →
        (s1.exec record ops = some s' → (∀ j, ¬ Pending s'.tp j) ∧ s'.calls = s1.calls) ∧
        (s2.exec record ops = some s' → (∀ j, ¬ Pending s'.tp j) ∧ s'.calls = s2.calls)) := by
  obtain ⟨hmu, _, hti⟩ := reachable_inv w s h
  have hn : ∀ j, ¬ Pending (stopStored s) j := stopStored_none_pending s hti
  have hq1 : Quiet { s with tp := stopStored s, queue := [], calls := s.calls ++ flushCalls s } :=
    ⟨hmu, rfl, hn⟩
  have hq2 : Quiet { s with tp := stopStored s, timer := none, queue := [] } := ⟨hmu, rfl, hn⟩
  refine ⟨_, _, FlushNow_record_eq s hmu, Clear_eq s hmu, pendingCount_eq_zero _ hn,
    pendingCount_eq_zero _ hn, fun j => ⟨hn j, hn j⟩, ?_, ?_⟩
  · intro run dt id
    constructor
    · exact timerFire_none_of_expire_none run _ id (expire_none_of_not_pending _ id (hn id))
    · exact timerFire_none_of_expire_none run _ id (expire_none_of_not_pending _ id (hn id))
  · intro ops s' hops
    constructor
    · intro he
      obtain ⟨hq', hc'⟩ := quiet_exec ops _ s' hq1 hops he
      exact ⟨hq'.2.2, hc'⟩
    · intro he
      obtain ⟨hq', hc'⟩ := quiet_exec ops _ s' hq2 hops he
      exact ⟨hq'.2.2, hc'⟩

theorem C15_no_pending_timer_after_FlushNow_or_Clear_witness :
    Reachable 500 scenarioState ∧
    ∃ s1 s2, scenarioState.FlushNow record = some s1 ∧ scenarioState.Clear = some s2 ∧
      s1.tp.pendingCount = 0 ∧ s2.tp.pendingCount = 0 := by
  obtain ⟨s1, s2, h1, h2, h3, h4, _⟩ :=
    C15_no_pending_timer_after_FlushNow_or_Clear 500 scenarioState ⟨scenarioOps, rfl⟩
  exact ⟨⟨scenarioOps, rfl⟩, s1, s2, h1, h2, h3, h4⟩

/-! ## Non-empty items and snapshots -/

theorem enqueueQueue_data_ne_nil (q : List Item) (key : String) (data : List UInt8)
    (hnd : (q.map Item.Key).Nodup) (hq : ∀ it ∈ q, it.Data ≠ []) :
    ∀ it ∈ enqueueQueue q key data, it.Data ≠ [] := by
  unfold enqueueQueue
  by_cases h : key ∈ q.map Item.Key
  · rw [consolidate_some q key data hnd h]
    intro it hit
    obtain ⟨it0, h0, rfl⟩ := List.mem_map.mp hit
    unfold bump
    split
    · simp
    · exact hq it0 h0
  · rw [consolidate_none q key data h]
    intro it hit
    rcases List.mem_append.mp hit with h1 | h1
    · exact hq it h1
    · simp only [List.mem_singleton] at h1
      subst h1
      simp

theorem flushCalls_data (b : Broker) (hnd : (b.queue.map Item.Key).Nodup)
    (hq : ∀ it ∈ b.queue, it.Data ≠ []) :
    ∀ c ∈ flushCalls b, c.items = b.queue ∧ c.items ≠ [] ∧ (∀ it ∈ c.items, it.Data ≠ []) ∧
      (c.items.map Item.Key).Nodup := by
  intro c hc
  unfold flushCalls at hc
  cases hf : b.onFlush with
  | none => simp [hf] at hc
  | some h =>
    by_cases hqe : b.queue = []
    · simp [hf, hqe] at hc
    · simp only [hf, hqe, if_false, List.mem_singleton] at hc
      subst hc
      exact ⟨rfl, hqe, hq, hnd⟩

theorem flushCalls_length (b : Broker) : (flushCalls b).length ≤ 1 := by
  unfold flushCalls
  cases b.onFlush with
  | none => simp
  | some h => by_cases hq : b.queue = [] <;> simp [hq]

theorem step_dataInv (b b' : Broker) (op : Op) (hi : Inv b) (hd : DataInv b)
    (hs : b.step record op = some b') : DataInv b' := by
  obtain ⟨hmu, hnd, _⟩ := hi
  obtain ⟨hq, hc⟩ := hd
  have hflush : ∀ c ∈ b.calls ++ flushCalls b, c.items ≠ [] ∧ (∀ it ∈ c.items, it.Data ≠ []) ∧
      (c.items.map Item.Key).Nodup := by
    intro c hcm
    rcases List.mem_append.mp hcm with h1 | h1
    · exact hc c h1
    · exact (flushCalls_data b hnd hq c h1).2
  cases op with
  | setOnFlush fn =>
    simp only [Broker.step, SetOnFlush_eq b hmu, Option.some.injEq] at hs
    subst hs
    exact ⟨hq, hc⟩
  | enqueue key data =>
    simp only [Broker.step, Enqueue_eq b hmu, Option.some.injEq] at hs
    subst hs
    exact ⟨enqueueQueue_data_ne_nil _ _ _ hnd hq, hc⟩
  | timerFire id =>
    simp only [Broker.step] at hs
    cases he : b.tp.expire id with
    | none => simp [Broker.timerFire, he] at hs
    | some tp =>
      rw [timerFire_record_eq b hmu id tp he, Option.some.injEq] at hs
      subst hs
      exact ⟨by simp, hflush⟩
  | flushNow =>
    simp only [Broker.step, FlushNow_record_eq b hmu, Option.some.injEq] at hs
    subst hs
    exact ⟨by simp, hflush⟩
  | clear =>
    simp only [Broker.step, Clear_eq b hmu, Option.some.injEq] at hs
    subst hs
    exact ⟨by simp, hc⟩
  | queueLength =>
    simp only [Broker.step, QueueLength_eq b hmu, Option.map_some', Option.some.injEq] at hs
    subst hs
    exact ⟨hq, hc⟩
  | advance dt =>
    simp only [Broker.step, Option.some.injEq] at hs
    subst hs
    exact ⟨hq, hc⟩

theorem exec_dataInv (ops : List Op) (b b' : Broker) (hi : Inv b) (hd : DataInv b)
    (hs : b.exec record ops = some b') : DataInv b' := by
  induction ops generalizing b with
  | nil =>
    simp only [Broker.exec, Option.some.injEq] at hs
    subst hs
    exact hd
  | cons op ops ih =>
    simp only [Broker.exec] at hs
    cases h1 : b.step record op with
    | none => simp [h1] at hs
    | some b1 =>
      rw [h1] at hs
      exact ih b1 (step_inv b b1 op hi h1) (step_dataInv b b1 op hi hd h1) hs

theorem reachable_dataInv (w : Int) (s : Broker) (h : Reachable w s) : DataInv s := by
  obtain ⟨ops, hops⟩ := h
  refine exec_dataInv ops (New w) s (New_inv w) ⟨?_, ?_⟩ hops
  · intro it hit
    simp [New] at hit
  · intro c hc
    simp [New] at hc

/-- C18: in every reachable state every queued item holds at least one fragment, and
every snapshot that was handed to a handler is non-empty, its items hold at least one
fragment each and have pairwise distinct keys.  A flush from a reachable state (direct,
by `FlushNow`, or by an expiring timer) makes at most one handler call, and the snapshot
of that call has as many items as `QueueLength()` returned just before. -/
theorem C18_items_and_snapshots_non_empty (w : Int) (s : Broker) (h : Reachable w s) :
    (∀ it ∈ s.queue, 1 ≤ it.Data.length) ∧
    (∀ c ∈ s.calls, 1 ≤ c.items.length ∧ (∀ it ∈ c.items, 1 ≤ it.Data.length) ∧
      c.items.Pairwise (fun a b => a.Key ≠ b.Key)) ∧
    (∀ s' : Broker, (s.flush record = some s' ∨ s.FlushNow record = some s' ∨
        ∃ id, s.timerFire record id = some s') →
      ∃ new, s'.calls = s.calls ++ new ∧ new.length ≤ 1 ∧
        ∀ c ∈ new, c.items = s.queue ∧ s.QueueLength = some (c.items.length, s)) := by
  obtain ⟨hmu, hnd, _⟩ := reachable_inv w s h
  obtain ⟨hq, hc⟩ := reachable_dataInv w s h
  refine ⟨?_, ?_, ?_⟩
  · intro it hit
    exact List.length_pos.mpr (hq it hit)
  · intro c hcm
    obtain ⟨h1, h2, h3⟩ := hc c hcm
    exact ⟨List.length_pos.mpr h1, fun it hit => List.length_pos.mpr (h2 it hit),
      (List.pairwise_map (R := (· ≠ ·))).mp h3⟩
  · intro s' hs'
    have hcalls : s'.calls = s.calls ++ flushCalls s := by
      rcases hs' with h1 | h1 | ⟨id, h1⟩
      · rw [flush_record_eq s hmu, Option.some.injEq] at h1
        subst h1; rfl
      · rw [FlushNow_record_eq s hmu, Option.some.injEq] at h1
        subst h1; rfl
      · cases he : s.tp.expire id with
        | none => simp [Broker.timerFire, he] at h1
        | some tp =>
          rw [timerFire_record_eq s hmu id tp he, Option.some.injEq] at h1
          subst h1; rfl
    refine ⟨flushCalls s, hcalls, flushCalls_length s, ?_⟩
    intro c hcm
    have := (flushCalls_data s hnd hq c hcm).1
    exact ⟨this, by rw [QueueLength_eq s hmu, this]⟩

theorem C18_items_and_snapshots_non_empty_witness :
    Reachable 50 key1Flushed ∧
    (∀ c ∈ key1Flushed.calls, 1 ≤ c.items.length ∧ (∀ it ∈ c.items, 1 ≤ it.Data.length) ∧
      c.items.Pairwise (fun a b => a.Key ≠ b.Key)) :=
  ⟨⟨key1Ops ++ [Op.advance 50, Op.timerFire 0], rfl⟩,
    (C18_items_and_snapshots_non_empty 50 key1Flushed
      ⟨key1Ops ++ [Op.advance 50, Op.timerFire 0], rfl⟩).2.1⟩

/-! ## Conservation -/

theorem dataOf_append (key : String) (q r : List Item) :
    dataOf key (q ++ r) = dataOf key q ++ dataOf key r := by
  induction q with
  | nil => rfl
  | cons it rest ih =>
    rw [List.cons_append]
    simp only [dataOf]
    split <;> simp [ih]

theorem deliveredOf_append (key : String) (c d : List Invocation) :
    deliveredOf key (c ++ d) = deliveredOf key c ++ deliveredOf key d := by
  induction c with
  | nil => rfl
  | cons x rest ih => simp [deliveredOf, ih]

theorem fragmentCount_append (q r : List Item) :
    fragmentCount (q ++ r) = fragmentCount q + fragmentCount r := by
  induction q with
  | nil => simp [fragmentCount]
  | cons it rest ih =>
    rw [List.cons_append, fragmentCount, fragmentCount, ih]
    omega

theorem deliveredCount_append (c d : List Invocation) :
    deliveredCount (c ++ d) = deliveredCount c + deliveredCount d := by
  induction c with
  | nil => simp [deliveredCount]
  | cons x rest ih =>
    rw [List.cons_append, deliveredCount, deliveredCount, ih]
    omega

theorem dataOf_of_not_mem (key : String) (q : List Item) (h : key ∉ q.map Item.Key) :
    dataOf key q = [] := by
  induction q with
  | nil => rfl
  | cons it rest ih =>
    simp only [List.map_cons, List.mem_cons, not_or] at h
    have h1 : ¬ it.Key = key := fun e => h.1 e.symm
    simp [dataOf, h1, ih h.2]

theorem dataOf_map_bump (key k : String) (d : List UInt8) (q : List Item)
    (hnd : (q.map Item.Key).Nodup) (hk : k ∈ q.map Item.Key) :
    dataOf key (q.map (bump k d)) = dataOf key q ++ (if k = key then [d] else []) := by
  induction q with
  | nil => simp at hk
  | cons it rest ih =>
    simp only [List.map_cons, List.nodup_cons] at hnd
    by_cases h1 : it.Key = k
    · have hr : k ∉ rest.map Item.Key := h1 ▸ hnd.1
      rw [List.map_cons, map_bump_of_not_mem rest k d hr]
      by_cases h2 : k = key
      · subst h2
        have h0 : dataOf k rest = [] := dataOf_of_not_mem k rest hr
        simp [dataOf, bump, h1, h0]
      · have h3 : ¬ it.Key = key := fun e => h2 (h1 ▸ e)
        simp [dataOf, bump, h1, h2, h3]
    · have hr : k ∈ rest.map Item.Key := by
        simp only [List.map_cons, List.mem_cons] at hk
        rcases hk with h | h
        · exact absurd h.symm h1
        · exact h
      have hb : bump k d it = it := by simp [bump, h1]
      rw [List.map_cons, hb]
      simp only [dataOf, ih hnd.2 hr]
      split <;> simp

theorem dataOf_enqueueQueue (key k : String) (d : List UInt8) (q : List Item)
    (hnd : (q.map Item.Key).Nodup) :
    dataOf key (enqueueQueue q k d) = dataOf key q ++ (if k = key then [d] else []) := by
  unfold enqueueQueue
  by_cases h : k ∈ q.map Item.Key
  · rw [consolidate_some q k d hnd h]
    exact dataOf_map_bump key k d q hnd h
  · rw [consolidate_none q k d h]
    simp only [dataOf_append, dataOf]
    split <;> simp

theorem fragmentCount_consolidate (q q' : List Item) (k : String) (d : List UInt8)
    (h : consolidate q k d = some q') : fragmentCount q' = fragmentCount q + 1 := by
  induction q generalizing q' with
  | nil => simp [consolidate] at h
  | cons it rest ih =>
    by_cases h1 : it.Key = k
    · simp only [consolidate, h1, if_true, Option.some.injEq] at h
      subst h
      simp only [fragmentCount, List.length_append, List.length_singleton]
      omega
    · simp only [consolidate, h1, if_false, Option.map_eq_some'] at h
      obtain ⟨r, hr, rfl⟩ := h
      simp only [fragmentCount, ih r hr]
      omega

theorem fragmentCount_enqueueQueue (q : List Item) (k : String) (d : List UInt8) :
    fragmentCount (enqueueQueue q k d) = fragmentCount q + 1 := by
  unfold enqueueQueue
  cases hc : consolidate q k d with
  | none => simp [fragmentCount_append, fragmentCount]
  | some q' => exact fragmentCount_consolidate q q' k d hc

theorem flushCalls_delivered (b : Broker) (hf : b.onFlush ≠ none) (key : String) :
    deliveredOf key (flushCalls b) = dataOf key b.queue ∧
    deliveredCount (flushCalls b) = fragmentCount b.queue := by
  unfold flushCalls
  cases h : b.onFlush with
  | none => exact absurd h hf
  | some f =>
    by_cases hq : b.queue = []
    · simp [hq, deliveredOf, dataOf, deliveredCount, fragmentCount]
    · simp [hq, deliveredOf, deliveredCount]

theorem conserve_step (b b' : Broker) (op : Op) (hi : Inv b) (hf : b.onFlush ≠ none)
    (hop : op.conserving = true) (hs : b.step record op = some b') :
    b'.onFlush ≠ none ∧
    (∀ key, deliveredOf key b'.calls ++ dataOf key b'.queue =
      deliveredOf key b.calls ++ dataOf key b.queue ++ fragmentsOf key (submitted [op])) ∧
    deliveredCount b'.calls + fragmentCount b'.queue =
      deliveredCount b.calls + fragmentCount b.queue + (submitted [op]).length := by
  obtain ⟨hmu, hnd, _⟩ := hi
  have hflush : ∀ key, deliveredOf key (b.calls ++ flushCalls b) ++ dataOf key [] =
      deliveredOf key b.calls ++ dataOf key b.queue ++ fragmentsOf key [] := by
    intro key
    simp [deliveredOf_append, (flushCalls_delivered b hf key).1, dataOf, fragmentsOf]
  have hflushc : deliveredCount (b.calls ++ flushCalls b) + fragmentCount [] =
      deliveredCount b.calls + fragmentCount b.queue + 0 := by
    simp [deliveredCount_append, (flushCalls_delivered b hf "").2, fragmentCount]
  cases op with
  | setOnFlush fn =>
    simp only [Broker.step, SetOnFlush_eq b hmu, Option.some.injEq] at hs
    subst hs
    cases fn with
    | none => simp [Op.conserving] at hop
    | some f => exact ⟨by simp, fun key => by simp [submitted, fragmentsOf], by simp [submitted]⟩
  | enqueue k d =>
    simp only [Broker.step, Enqueue_eq b hmu, Option.some.injEq] at hs
    subst hs
    refine ⟨hf, fun key => ?_, ?_⟩
    · simp only [dataOf_enqueueQueue key k d b.queue hnd, submitted, fragmentsOf]
      by_cases e : k = key <;> simp [e]
    · simp only [fragmentCount_enqueueQueue, submitted, List.length_singleton]
      omega
  | timerFire id =>
    simp only [Broker.step] at hs
    cases he : b.tp.expire id with
    | none => simp [Broker.timerFire, he] at hs
    | some tp =>
      rw [timerFire_record_eq b hmu id tp he, Option.some.injEq] at hs
      subst hs
      exact ⟨hf, hflush, hflushc⟩
  | flushNow =>
    simp only [Broker.step, FlushNow_record_eq b hmu, Option.some.injEq] at hs
    subst hs
    exact ⟨hf, hflush, hflushc⟩
  | clear => simp [Op.conserving] at hop
  | queueLength =>
    simp only [Broker.step, QueueLength_eq b hmu, Option.map_some', Option.some.injEq] at hs
    subst hs
    exact ⟨hf, fun key => by simp [submitted, fragmentsOf], by simp [submitted]⟩
  | advance dt =>
    simp only [Broker.step, Option.some.injEq] at hs
    subst hs
    exact ⟨hf, fun key => by simp [submitted, fragmentsOf, Broker.advance],
      by simp [submitted, Broker.advance]⟩

theorem submitted_cons (op : Op) (ops : List Op) :
    submitted (op :: ops) = submitted [op] ++ submitted ops := by
  cases op <;> simp [submitted]

theorem fragmentsOf_append (key : String) (k1 k2 : List (String × List UInt8)) :
    fragmentsOf key (k1 ++ k2) = fragmentsOf key k1 ++ fragmentsOf key k2 := by
  simp [fragmentsOf, List.filter_append]

theorem conserve_exec (ops : List Op) (b b' : Broker) (hi : Inv b) (hf : b.onFlush ≠ none)
    (hops : ∀ op ∈ ops, op.conserving = true) (hs : b.exec record ops = some b') :
    (∀ key, deliveredOf key b'.calls ++ dataOf key b'.queue =
      deliveredOf key b.calls ++ dataOf key b.queue ++ fragmentsOf key (submitted ops)) ∧
    deliveredCount b'.calls + fragmentCount b'.queue =
      deliveredCount b.calls + fragmentCount b.queue + (submitted ops).length := by
  induction ops generalizing b with
  | nil =>
    simp only [Broker.exec, Option.some.injEq] at hs
    subst hs
    exact ⟨fun key => by simp [submitted, fragmentsOf], by simp [submitted]⟩
  | cons op ops ih =>
    simp only [Broker.exec] at hs
    cases h1 : b.step record op with
    | none => simp [h1] at hs
    | some b1 =>
      rw [h1] at hs
      obtain ⟨hf1, hk1, hc1⟩ :=
        conserve_step b b1 op hi hf (hops op (List.mem_cons_self _ _)) h1
      obtain ⟨hk, hc⟩ := ih b1 (step_inv b b1 op hi h1) hf1
        (fun o ho => hops o (List.mem_cons_of_mem _ ho)) hs
      refine ⟨fun key => ?_, ?_⟩
      · rw [hk key, hk1 key, submitted_cons op ops, fragmentsOf_append]
        simp [List.append_assoc]
      · rw [hc, hc1, submitted_cons op ops, List.length_append]
        omega

/-- C17: on a fresh broker with a handler registered, along any run of `Enqueue`,
timer-fired flushes, `FlushNow`, `QueueLength`, handler replacements and passing time,
with no `Clear` and never without a handler, for each key the fragments delivered under
that key by the handler calls so far, in delivery order, followed by the fragments
pending under that key, are exactly the fragments submitted under that key, in
submission order; and the number of fragments delivered plus pending is the number of
`Enqueue` calls. -/
theorem C17_conservation (w : Int) (h : Nat) (ops : List Op) (s : Broker)
    (hops : ∀ op ∈ ops, op.conserving = true)
    (hs : ((New w).SetOnFlush (some h)).bind (fun b => b.exec record ops) = some s) :
    (∀ key, deliveredOf key s.calls ++ dataOf key s.queue = fragmentsOf key (submitted ops)) ∧
    deliveredCount s.calls + fragmentCount s.queue = (submitted ops).length := by
  rw [SetOnFlush_eq _ rfl, Option.some_bind] at hs
  have hi : Inv ({ New w with onFlush := some h } : Broker) := New_inv w
  obtain ⟨hk, hc⟩ := conserve_exec ops _ s hi (by simp) hops hs
  refine ⟨fun key => ?_, ?_⟩
  · rw [hk key]
    simp [New, deliveredOf, dataOf]
  · rw [hc]
    simp [New, deliveredCount, fragmentCount]

theorem C17_conservation_witness :
    (∀ op ∈ conservingOps, op.conserving = true) ∧
    ((New 500).SetOnFlush (some 0)).bind (fun b => b.exec record conservingOps) =
      some conservedState ∧
    (∀ key, deliveredOf key conservedState.calls ++ dataOf key conservedState.queue =
      fragmentsOf key (submitted conservingOps)) ∧
    deliveredCount conservedState.calls + fragmentCount conservedState.queue = 5 :=
  ⟨by simp [conservingOps, Op.conserving], rfl,
    (C17_conservation 500 0 conservingOps conservedState
      (by simp [conservingOps, Op.conserving]) rfl).1,
    (C17_conservation 500 0 conservingOps conservedState
      (by simp [conservingOps, Op.conserving]) rfl).2⟩

/-! ## Snapshots in memory -/

theorem readItems_eq_of_sameSnap (snap : Slice) (h h' : Heap) (hs : SameSnap snap h h') :
    h'.readItems snap = h.readItems snap := by
  unfold Heap.readItems
  apply List.map_congr_left
  intro i hi
  have hi' : i < snap.len := List.mem_range.mp hi
  rw [hs.1 i]
  congr 1
  unfold Heap.readData
  apply List.map_congr_left
  intro k _
  exact hs.2 i hi' k

theorem sameSnap_refl (snap : Slice) (h : Heap) : SameSnap snap h h :=
  ⟨fun _ => rfl, fun _ _ _ => rfl⟩

theorem sameSnap_trans (snap : Slice) (h1 h2 h3 : Heap) (h12 : SameSnap snap h1 h2)
    (h23 : SameSnap snap h2 h3) : SameSnap snap h1 h3 := by
  refine ⟨fun i => (h23.1 i).trans (h12.1 i), ?_⟩
  intro i hi k
  have := h23.2 i hi k
  rw [h12.1 i] at this
  exact this.trans (h12.2 i hi k)

theorem frame_wf (b b' : MemBroker) (hf : Frame b b') : MemWF b' :=
  ⟨hf.2.2.2.2.2.1, fun j hj => (hf.2.2.2.2.2.2 j hj).1⟩

theorem frame_safe (b b' : MemBroker) (hf : Frame b b') (snap : Slice) (hs : Safe snap b) :
    Safe snap b' ∧ SameSnap snap b.heap b'.heap := by
  obtain ⟨f1, f2, f3, f4, f5, _, f7⟩ := hf
  obtain ⟨s1, s2, s3⟩ := hs
  have hcell : ∀ i, b'.heap.items snap.ptr i = b.heap.items snap.ptr i :=
    fun i => f3 snap.ptr i s1 s2
  refine ⟨⟨by omega, ?_, ?_⟩, hcell, ?_⟩
  · rcases f5 with e | e
    · rw [e]; exact s2
    · omega
  · intro i hi
    rw [hcell i]
    refine ⟨by have := (s3 i hi).1; omega, ?_⟩
    intro j hj
    rcases (f7 j hj).2 with ⟨j0, hj0, e⟩ | e
    · rw [e]; exact (s3 i hi).2 j0 hj0
    · have := (s3 i hi).1
      omega
  · intro i hi k
    exact f4 _ k (s3 i hi).1 (fun j hj => (s3 i hi).2 j hj)

theorem frame_refl (b : MemBroker) (hw : MemWF b) : Frame b b :=
  ⟨Nat.le_refl _, Nat.le_refl _, fun _ _ _ _ => rfl, fun _ _ _ _ => rfl, Or.inl rfl, hw.1,
    fun j hj => ⟨hw.2 j hj, Or.inl ⟨j, hj, rfl⟩⟩⟩

theorem findKey_some (row : Nat → ItemCell) (key : String) (n i j : Nat)
    (h : findKey row key n i = some j) : i ≤ j ∧ j < i + n := by
  induction n generalizing i with
  | zero => simp [findKey] at h
  | succ n ih =>
    unfold findKey at h
    by_cases hk : (row i).Key = key
    · rw [if_pos hk] at h
      cases h
      omega
    · rw [if_neg hk] at h
      have := ih (i + 1) h
      omega

theorem Enqueue_frame (grow : Nat → Nat) (b : MemBroker) (key : String) (data : List UInt8)
    (hw : MemWF b) : Frame b (b.Enqueue grow key data) := by
  obtain ⟨hq, hl⟩ := hw
  unfold MemBroker.Enqueue
  cases hf : findKey (b.heap.items b.queue.ptr) key b.queue.len 0 with
  | some i =>
    have hi : i < b.queue.len := by
      have := findKey_some _ _ _ _ _ hf
      omega
    by_cases hcap : (b.heap.items b.queue.ptr i).Data.len < (b.heap.items b.queue.ptr i).Data.cap
    · simp only [appendData, hcap, if_true]
      refine ⟨Nat.le_refl _, Nat.le_refl _, ?_, ?_, Or.inl rfl, hq, ?_⟩
      · intro a j _ ha
        simp [ha]
      · intro a k _ ha
        have : ¬ a = (b.heap.items b.queue.ptr i).Data.ptr := fun e => ha i hi e.symm
        simp [this]
      · intro j hj
        by_cases e : j = i
        · subst e
          simp only [and_self, if_true]
          exact ⟨hl j hj, Or.inl ⟨j, hj, rfl⟩⟩
        · simp only [e, and_false, if_false]
          exact ⟨hl j hj, Or.inl ⟨j, hj, rfl⟩⟩
    · simp only [appendData, hcap, if_false]
      refine ⟨Nat.le_refl _, Nat.le_succ _, ?_, ?_, Or.inl rfl, hq, ?_⟩
      · intro a j _ ha
        simp [ha]
      · intro a k ha _
        have : ¬ a = b.heap.fragsNext := by omega
        simp [this]
      · intro j hj
        by_cases e : j = i
        · subst e
          simp only [and_self, if_true]
          exact ⟨Nat.lt_succ_self _, Or.inr (Nat.le_refl _)⟩
        · simp only [e, and_false, if_false]
          exact ⟨Nat.lt_succ_of_lt (hl j hj), Or.inl ⟨j, hj, rfl⟩⟩
  | none =>
    by_cases hcap : b.queue.len < b.queue.cap
    · simp only [literalData, appendItem, hcap, if_true]
      refine ⟨Nat.le_refl _, Nat.le_succ _, ?_, ?_, Or.inl rfl, hq, ?_⟩
      · intro a j _ ha
        simp [ha]
      · intro a k ha _
        have : ¬ a = b.heap.fragsNext := by omega
        simp [this]
      · intro j hj
        have hj' : j < b.queue.len + 1 := hj
        by_cases e : j = b.queue.len
        · subst e
          simp only [and_self, if_true]
          exact ⟨Nat.lt_succ_self _, Or.inr (Nat.le_refl _)⟩
        · have hjl : j < b.queue.len := by omega
          simp only [e, and_false, if_false]
          exact ⟨Nat.lt_succ_of_lt (hl j hjl), Or.inl ⟨j, hjl, rfl⟩⟩
    · simp only [literalData, appendItem, hcap, if_false]
      refine ⟨Nat.le_succ _, Nat.le_succ _, ?_, ?_, Or.inr (Nat.le_refl _),
        Nat.lt_succ_self _, ?_⟩
      · intro a j ha _
        have : ¬ a = b.heap.itemsNext := by omega
        simp [this]
      · intro a k ha _
        have : ¬ a = b.heap.fragsNext := by omega
        simp [this]
      · intro j hj
        have hj' : j < b.queue.len + 1 := hj
        by_cases e : j < b.queue.len
        · simp only [if_true, e]
          exact ⟨Nat.lt_succ_of_lt (hl j e), Or.inl ⟨j, e, rfl⟩⟩
        · have e' : j = b.queue.len := by omega
          subst e'
          simp only [if_true, Nat.lt_irrefl, if_false]
          exact ⟨Nat.lt_succ_self _, Or.inr (Nat.le_refl _)⟩

theorem flush_frame (b : MemBroker) (hw : MemWF b) : Frame b b.flush := by
  unfold MemBroker.flush
  by_cases hq : b.queue.len = 0
  · rw [if_pos hq]
    exact frame_refl b hw
  · rw [if_neg hq]
    have hframe : ∀ (f : Option Nat) (c : List (Nat × Slice)),
        Frame b { queue := { b.queue with len := 0 }, heap := (copyItems b.heap b.queue).1,
                  onFlush := f, calls := c } := by
      intro f c
      refine ⟨Nat.le_succ _, Nat.le_refl _, ?_, fun _ _ _ _ => rfl, Or.inl rfl,
        Nat.lt_succ_of_lt hw.1, ?_⟩
      · intro a i ha _
        have : ¬ a = b.heap.itemsNext := by omega
        simp [copyItems, this]
      · intro j hj
        exact absurd hj (Nat.not_lt_zero j)
    cases b.onFlush with
    | none => exact hframe _ _
    | some h => exact hframe _ _

theorem flush_calls (b : MemBroker) :
    b.flush.calls = b.calls ∨
    ∃ h, b.onFlush = some h ∧ b.queue.len ≠ 0 ∧
      b.flush.calls = b.calls ++
        [(h, { ptr := b.heap.itemsNext, len := b.queue.len, cap := b.queue.len })] := by
  unfold MemBroker.flush
  by_cases hq : b.queue.len = 0
  · left
    rw [if_pos hq]
  · rw [if_neg hq]
    cases hf : b.onFlush with
    | none => left; rfl
    | some h => right; exact ⟨h, rfl, hq, rfl⟩

theorem flush_heap (b : MemBroker) (hq : b.queue.len ≠ 0) :
    b.flush.heap = (copyItems b.heap b.queue).1 ∧ b.flush.queue = { b.queue with len := 0 } := by
  unfold MemBroker.flush
  rw [if_neg hq]
  cases b.onFlush <;> exact ⟨rfl, rfl⟩

theorem flush_new_safe (b : MemBroker) (hw : MemWF b) (hq : b.queue.len ≠ 0) :
    Safe { ptr := b.heap.itemsNext, len := b.queue.len, cap := b.queue.len } b.flush := by
  obtain ⟨hh, hqq⟩ := flush_heap b hq
  unfold Safe
  rw [hh, hqq]
  refine ⟨Nat.lt_succ_self _, ?_, ?_⟩
  · have := hw.1
    show b.heap.itemsNext ≠ b.queue.ptr
    omega
  · intro i hi
    have hi' : i < b.queue.len := hi
    refine ⟨?_, fun j hj => absurd hj (Nat.not_lt_zero j)⟩
    simp only [copyItems, if_true, hi']
    exact hw.2 i hi'

theorem flush_new_read (b : MemBroker) (hq : b.queue.len ≠ 0) :
    b.flush.heap.readItems { ptr := b.heap.itemsNext, len := b.queue.len, cap := b.queue.len } =
      b.heap.readItems b.queue := by
  rw [(flush_heap b hq).1]
  unfold Heap.readItems
  apply List.map_congr_left
  intro i hi
  have hi' : i < b.queue.len := List.mem_range.mp hi
  simp [copyItems, hi', Heap.readData]

theorem Enqueue_calls (grow : Nat → Nat) (b : MemBroker) (key : String) (data : List UInt8) :
    (b.Enqueue grow key data).calls = b.calls := by
  unfold MemBroker.Enqueue
  cases findKey (b.heap.items b.queue.ptr) key b.queue.len 0 <;> rfl

theorem Clear_frame (b : MemBroker) (hw : MemWF b) : Frame b b.Clear :=
  ⟨Nat.le_refl _, Nat.le_refl _, fun _ _ _ _ => rfl, fun _ _ _ _ => rfl, Or.inl rfl, hw.1,
    fun j hj => absurd hj (Nat.not_lt_zero j)⟩

theorem step_frame (grow : Nat → Nat) (b : MemBroker) (op : Op) (hw : MemWF b) :
    Frame b (b.step grow op) := by
  cases op with
  | setOnFlush fn => exact frame_refl b hw
  | enqueue key data => exact Enqueue_frame grow b key data hw
  | timerFire id => exact flush_frame b hw
  | flushNow => exact flush_frame b hw
  | clear => exact Clear_frame b hw
  | queueLength => exact frame_refl b hw
  | advance dt => exact frame_refl b hw

theorem step_allSafe (grow : Nat → Nat) (b : MemBroker) (op : Op) (ha : AllSafe b) :
    AllSafe (b.step grow op) := by
  obtain ⟨hw, hc⟩ := ha
  have hf := step_frame grow b op hw
  refine ⟨frame_wf b _ hf, ?_⟩
  have hold : ∀ c ∈ b.calls, Safe c.2 (b.step grow op) :=
    fun c hcm => (frame_safe b _ hf c.2 (hc c hcm)).1
  have hflush : ∀ c ∈ b.flush.calls, Safe c.2 b.flush := by
    intro c hcm
    rcases flush_calls b with e | ⟨h, _, hq, e⟩
    · rw [e] at hcm
      exact (frame_safe b _ (flush_frame b hw) c.2 (hc c hcm)).1
    · rw [e] at hcm
      rcases List.mem_append.mp hcm with h1 | h1
      · exact (frame_safe b _ (flush_frame b hw) c.2 (hc c h1)).1
      · simp only [List.mem_singleton] at h1
        subst h1
        exact flush_new_safe b hw hq
  cases op with
  | setOnFlush fn => exact hold
  | enqueue key data =>
    intro c hcm
    have hcm' : c ∈ b.calls := by
      have e : (b.step grow (.enqueue key data)).calls = b.calls := Enqueue_calls grow b key data
      rw [e] at hcm
      exact hcm
    exact hold c hcm'
  | timerFire id => exact hflush
  | flushNow => exact hflush
  | clear => exact hold
  | queueLength => exact hold
  | advance dt => exact hold

theorem exec_allSafe (grow : Nat → Nat) (ops : List Op) (b : MemBroker) (ha : AllSafe b) :
    AllSafe (b.exec grow ops) := by
  induction ops generalizing b with
  | nil => exact ha
  | cons op ops ih => exact ih _ (step_allSafe grow b op ha)

theorem NewMem_allSafe : AllSafe NewMem := by
  refine ⟨⟨by simp [NewMem], ?_⟩, ?_⟩
  · intro j hj
    simp [NewMem] at hj
  · intro c hc
    simp [NewMem] at hc

theorem exec_sameSnap (grow : Nat → Nat) (ops : List Op) (b : MemBroker) (hw : MemWF b)
    (snap : Slice) (hs : Safe snap b) : SameSnap snap b.heap (b.exec grow ops).heap := by
  induction ops generalizing b with
  | nil => exact sameSnap_refl snap b.heap
  | cons op ops ih =>
    have hf := step_frame grow b op hw
    obtain ⟨hs1, h1⟩ := frame_safe b _ hf snap hs
    exact sameSnap_trans snap _ _ _ h1 (ih _ (frame_wf b _ hf) hs1)

/-- C16: with slices, backing arrays and the in-place `append` of Go made explicit, and
for any growth policy of the runtime: a snapshot slice that a flush has handed to a
handler denotes the same items, keys and fragment sequences after any later sequence of
`Enqueue`, `Clear`, flushes and handler replacements as it did before, although the
queue's backing array is reused; and the snapshot a flush hands over denotes what the
queue denoted just before the flush. -/
theorem C16_snapshot_independent_of_live_queue (grow : Nat → Nat) (ops later : List Op)
    (hdl : Nat) (snap : Slice) (h : (hdl, snap) ∈ (NewMem.exec grow ops).calls) :
    ((NewMem.exec grow ops).exec grow later).heap.readItems snap =
      (NewMem.exec grow ops).heap.readItems snap ∧
    ((NewMem.exec grow ops).queue.len ≠ 0 →
      (NewMem.exec grow ops).flush.heap.readItems
          { ptr := (NewMem.exec grow ops).heap.itemsNext,
            len := (NewMem.exec grow ops).queue.len,
            cap := (NewMem.exec grow ops).queue.len } =
        (NewMem.exec grow ops).heap.readItems (NewMem.exec grow ops).queue) := by
  obtain ⟨hw, hc⟩ := exec_allSafe grow ops NewMem NewMem_allSafe
  refine ⟨?_, fun hq => flush_new_read _ hq⟩
  apply readItems_eq_of_sameSnap
  exact exec_sameSnap grow later _ hw snap (hc (hdl, snap) h)

theorem C16_snapshot_independent_of_live_queue_witness :
    (0, ({ ptr := 1, len := 2, cap := 2 } : Slice)) ∈
      (NewMem.exec (fun c => 2 * c) reuseOps).calls ∧
    (NewMem.exec (fun c => 2 * c) reuseOps).heap.readItems { ptr := 1, len := 2, cap := 2 } =
      [{ Key := "a", Data := [[65], [66]] }, { Key := "b", Data := [[67]] }] ∧
    ((NewMem.exec (fun c => 2 * c) reuseOps).exec (fun c => 2 * c) reuseMore).heap.readItems
        { ptr := 1, len := 2, cap := 2 } =
      (NewMem.exec (fun c => 2 * c) reuseOps).heap.readItems { ptr := 1, len := 2, cap := 2 } :=
  ⟨by simp [reuseOps, MemBroker.exec, MemBroker.step, MemBroker.SetOnFlush, MemBroker.Enqueue,
      MemBroker.flush, NewMem, findKey, literalData, appendItem, appendData, copyItems,
      ItemCell.zero],
    by rfl,
    (C16_snapshot_independent_of_live_queue (fun c => 2 * c) reuseOps reuseMore 0
      { ptr := 1, len := 2, cap := 2 }
      (by simp [reuseOps, MemBroker.exec, MemBroker.step, MemBroker.SetOnFlush,
        MemBroker.Enqueue, MemBroker.flush, NewMem, findKey, literalData, appendItem,
        appendData, copyItems, ItemCell.zero])).1⟩

end broker
